import Mathlib

/-!
# Verification of the flag-complex feature engine (`connalysis.network.topology`)

Shallow embedding of the core matrix-transformation, filtration, chunking and
decoding logic of `src/connalysis/network/topology.py` (and its legacy variant
`library/topology.py`), together with theorems settling the specified claims.

Conventions:
* a sparse weighted matrix is represented by its list of stored entries
  `((row, col), weight)` (mirroring the csr `data` array with its positions);
* real weights are represented by `ℚ` (only order/equality comparisons occur);
* `numpy` arrays of dimensions are lists of `ℤ`; the value `np.inf` used for an
  unbounded `max_dim` is represented by `EInt.inf`;
* Python exceptions are modelled with `Except`/`Option` results.
-/

/-! ## Extended integers (ℤ together with `np.inf`) -/

inductive EInt where
  | int (z : ℤ)
  | inf
deriving DecidableEq, Repr

/-- `a <= b` on integers extended with `np.inf`. -/
def EInt.leb : EInt → EInt → Bool
  | _, .inf => true
  | .inf, .int _ => false
  | .int a, .int b => decide (a ≤ b)

/-- `a < b` on integers extended with `np.inf`. -/
def EInt.ltb (a b : EInt) : Bool := !(EInt.leb b a)

/-- Successor; `np.inf + 1 = np.inf`. -/
def EInt.add1 : EInt → EInt
  | .int z => .int (z + 1)
  | .inf => .inf

/-- Extract the integer of a finite extended integer, with a default for `inf`. -/
def EInt.toIntD (d : ℤ) : EInt → ℤ
  | .int z => z
  | .inf => d

/-! ## Generic list helpers (numpy-style ranges, grouping, indexing) -/

/-- `np.arange(n) + lo` : the list `[lo, lo+1, ..., lo+n-1]`. -/
def intRange (lo : ℤ) : ℕ → List ℤ
  | 0 => []
  | n + 1 => lo :: intRange (lo + 1) n

/-- Replace the last element of a list (`l[-1] = x` on a nonempty array). -/
def setLast {α : Type} (l : List α) (x : α) : List α := l.dropLast ++ [x]

/--
Group a list of pairs into maximal runs of adjacent pairs sharing the same
second component.  This is `np.split(arr, np.where(diff != 0)[0] + 1)` applied
to values paired with their payload: boundaries sit exactly at the positions
where the value changes.
-/
def groupBySnd {α β : Type} [DecidableEq β] : List (α × β) → List (List (α × β))
  | [] => []
  | p :: rest =>
    match groupBySnd rest with
    | [] => [[p]]
    | [] :: gs => [p] :: gs
    | (q :: t) :: gs => if p.2 = q.2 then (p :: q :: t) :: gs else [p] :: (q :: t) :: gs

/-- numpy integer indexing into a 1-d array: non-negative indices are direct,
negative indices count from the end, anything else is an `IndexError`. -/
def npIndex (l : List ℤ) (i : ℤ) : Option ℤ :=
  if 0 ≤ i ∧ i < (l.length : ℤ) then some (l.getD i.toNat 0)
  else if -(l.length : ℤ) ≤ i ∧ i < 0 then some (l.getD (i + l.length).toNat 0)
  else none

/-- `np.unique`-style ordered insertion: keeps the list sorted ascending and
drops duplicates. -/
def insertUnique (x : ℚ) : List ℚ → List ℚ
  | [] => [x]
  | y :: ys => if x < y then x :: y :: ys else if x = y then y :: ys else y :: insertUnique x ys

/-- `np.unique(data)` : the sorted ascending list of distinct values. -/
def npUnique (l : List ℚ) : List ℚ := l.foldr insertUnique []

/-! ## `at_weight_edges` (thresholding a weighted sparse matrix) -/

/-- The `data_thresh` array of `at_weight_edges`: entries satisfying the
threshold predicate keep their value, all others are zeroed. -/
def thresholdData (data : List ℚ) (threshold : ℚ) (method : String) :
    Except String (List ℚ) :=
  if method = "strength" then
    Except.ok (data.map (fun w => if threshold ≤ w then w else 0))
  else if method = "distance" then
    Except.ok (data.map (fun w => if w ≤ threshold then w else 0))
  else Except.error "Method has to be strength or distance"

/--
`at_weight_edges(weighted_adj, threshold, method)` : replaces the data array by
its thresholded version and then calls `eliminate_zeros()`, which removes every
stored position whose (new) value is zero from the sparse structure.
-/
def at_weight_edges (weighted_adj : List ((ℕ × ℕ) × ℚ)) (threshold : ℚ)
    (method : String) : Except String (List ((ℕ × ℕ) × ℚ)) :=
  (thresholdData (weighted_adj.map Prod.snd) threshold method).map
    (fun dataThresh =>
      ((weighted_adj.map Prod.fst).zip dataThresh).filter
        (fun e => !(decide (e.2 = 0))))

/-- The edges of a stored-entry list: the entries with nonzero weight. -/
def storedEdges (m : List ((ℕ × ℕ) × ℚ)) : List ((ℕ × ℕ) × ℚ) :=
  m.filter (fun e => !(decide (e.2 = 0)))

/-! ## `filtration_weights` and `filtered_simplex_counts` -/

/-- `filtration_weights` : distinct weights, descending for `strength`
(`np.unique(adj.data)[::-1]`), ascending for `distance` (`np.unique(adj.data)`). -/
def filtration_weights (data : List ℚ) (method : String) :
    Except String (List ℚ) :=
  if method = "strength" then Except.ok (npUnique data).reverse
  else if method = "distance" then Except.ok (npUnique data)
  else Except.error "Method has to be strength or distance"

/-- Width of the result table: length of the longest row of counts. -/
def tableWidth (rows : List (ℚ × List ℕ)) : ℕ :=
  (rows.map (fun r => r.2.length)).foldr max 0

/-- `pd.DataFrame.from_dict(..).fillna(0)` : every row is padded with zeros on
the right up to the width of the widest row. -/
def padTable (rows : List (ℚ × List ℕ)) : List (ℚ × List ℕ) :=
  rows.map (fun r => (r.1, r.2 ++ List.replicate (tableWidth rows - r.2.length) 0))

/--
`filtered_simplex_counts(adj, method)` parametrised by the external
simplex-count feature `counts` (the call into `pyflagsercount`): computes the
filtration weights, then builds `{w: counts(at_weight_edges(adj, w, method))
for w in weights[::-1]}` and frames it with `fillna(0)`.
Each list element corresponds to exactly one invocation of `counts`.
-/
def filtered_simplex_counts (counts : List ((ℕ × ℕ) × ℚ) → List ℕ)
    (adj : List ((ℕ × ℕ) × ℚ)) (method : String) :
    Except String (List (ℚ × List ℕ)) :=
  (filtration_weights (adj.map Prod.snd) method).bind (fun weights =>
    (weights.reverse.mapM (fun w =>
      (at_weight_edges adj w method).map (fun adj_w => (w, counts adj_w)))).map padTable)

/-! ## `underlying_undirected_matrix` -/

/-- Elementwise matrix sum. -/
def matAdd (a b : ℕ → ℕ → ℚ) : ℕ → ℕ → ℚ := fun i j => a i j + b i j

/-- Matrix transpose. -/
def matT (a : ℕ → ℕ → ℚ) : ℕ → ℕ → ℚ := fun i j => a j i

/-- `.astype('bool')` : nonzero entries become `true`. -/
def astypeBool (a : ℕ → ℕ → ℚ) : ℕ → ℕ → Bool := fun i j => decide (¬ a i j = 0)

/-- `underlying_undirected_matrix(adj) = (adj + adj.T).astype('bool')`. -/
def underlying_undirected_matrix (adj : ℕ → ℕ → ℚ) : ℕ → ℕ → Bool :=
  astypeBool (matAdd adj (matT adj))

/-! ## `bedge_counts` -/

/-- numpy fancy row indexing `m[simplex]` : row `a` of the result is row
`simplex[a]` of `m`. -/
def npRowIdx (m : ℕ → ℕ → ℤ) (s : List ℕ) : ℕ → ℕ → ℤ := fun a b => m (s.getD a 0) b

/-- numpy transpose. -/
def npTrans (m : ℕ → ℕ → ℤ) : ℕ → ℕ → ℤ := fun a b => m b a

/-- `subset_adj(simplex) = dense[simplex].T[simplex]`. -/
def subset_adj (dense : ℕ → ℕ → ℤ) (simplex : List ℕ) : ℕ → ℕ → ℤ :=
  npRowIdx (npTrans (npRowIdx dense simplex)) simplex

/-- `count_bedges` for one dimension: sum of `subset_adj` over all simplices of
that dimension (the `.apply(subset_adj, axis=1).agg("sum")` step). -/
def count_bedges (dense : ℕ → ℕ → ℤ) (d_simplices : List (List ℕ)) : ℕ → ℕ → ℤ :=
  fun p q => (d_simplices.map (fun s => subset_adj dense s p q)).sum

/-- Per-dimension guard: a dimension whose simplex rows have a single column
(dimension 0) yields `np.nan`, modelled as `none`. -/
def count_bedges_table (dense : ℕ → ℕ → ℤ) (d_simplices : List (List ℕ)) :
    Option (ℕ → ℕ → ℤ) :=
  if (d_simplices.headD []).length = 1 then none else some (count_bedges dense d_simplices)

/-- `bedge_counts` : the per-dimension application of `count_bedges`. -/
def bedge_counts (dense : ℕ → ℕ → ℤ) (simplices : List (List (List ℕ))) :
    List (Option (ℕ → ℕ → ℤ)) :=
  simplices.map (count_bedges_table dense)

/-! ## `_binary2simplex` (binary simplex decoder) -/

def mask64 : ℕ := 1 <<< 63
def mask21 : ℕ := (1 <<< 21) - 1
def mask42 : ℕ := ((1 <<< 42) - 1) ^^^ mask21
def mask63 : ℕ := (((1 <<< 63) - 1) ^^^ mask42) ^^^ mask21

/-- The all-ones sentinel `2^21 - 1` meaning "no vertex in this slot". -/
def end21 : ℕ := 2 ^ 21 - 1

/-- The three 21-bit vertex slots of a word, with sentinel slots removed. -/
def vertexSlots (w : ℕ) : List ℕ :=
  ([w &&& mask21, (w &&& mask42) >>> 21, (w &&& mask63) >>> 42]).filter
    (fun v => !(decide (v = end21)))

/-- `decode_vertices` : the start flag is `not ((w & mask64) >> 63)`, i.e. the
word starts a new simplex exactly when bit 63 is clear. -/
def decode_word (w : ℕ) : Bool × List ℕ :=
  (decide ((w &&& mask64) >>> 63 = 0), vertexSlots w)

/-- Decoder following the claimed convention: a word starts a new simplex when
bit 63 is *set*.  Modelled from the spec wording for comparison. -/
def decode_word_claimed (w : ℕ) : Bool × List ℕ :=
  (!(decide ((w &&& mask64) >>> 63 = 0)), vertexSlots w)

/-- Inclusive cumulative sum of the start flags (`np.cumsum(vertices.start)`)
starting from a running total `c`. -/
def cumsumFrom (c : ℕ) : List Bool → List ℕ
  | [] => []
  | b :: l =>
    (c + (if b then 1 else 0)) :: cumsumFrom (c + (if b then 1 else 0)) l

/--
`_binary2simplex` : decode every word, tag each word with its simplex id
(the cumulative count of start flags), group by simplex id (ids are
nondecreasing, so `groupby("sid")` groups exactly the maximal runs of equal
ids) and concatenate the vertex lists of each group in word order (`np.hstack`).
-/
def binary2simplex (ws : List ℕ) : List (List ℕ) :=
  (groupBySnd (((ws.map decode_word).map Prod.snd).zip
      (cumsumFrom 0 ((ws.map decode_word).map Prod.fst)))).map
    (fun g => (g.map Prod.fst).flatten)

/--
Direct grouping by start flags: a flagged word begins a new group, an unflagged
word is appended to the group of the word before it (leading unflagged words
form an initial group of their own).
-/
def specGroups {α : Type} : List (Bool × α) → List (List (Bool × α))
  | [] => []
  | p :: rest =>
    match specGroups rest with
    | [] => [[p]]
    | [] :: gs => [p] :: gs
    | (q :: t) :: gs =>
      if q.1 then [p] :: (q :: t) :: gs else (p :: q :: t) :: gs

/-- The decoder as the spec describes it, with the source's start polarity
(start = bit 63 clear): split the word stream at start words, concatenate the
vertex slots of each segment in word order. -/
def binary2simplex_spec (ws : List ℕ) : List (List ℕ) :=
  (specGroups (ws.map decode_word)).map (fun g => (g.map Prod.snd).flatten)

/-- The decoder as the claim states it (start = bit 63 set).  Modelled from the
spec for comparison with the source behaviour. -/
def binary2simplex_claimed (ws : List ℕ) : List (List ℕ) :=
  (specGroups (ws.map decode_word_claimed)).map (fun g => (g.map Prod.snd).flatten)

/-! ## `node_k_degree` -/

/-- Shape of the relevant fields of `pyflagsercount.flagser_count` output. -/
structure FlagserCountOutput where
  cell_counts : List ℕ
  simplices : List (List (List ℕ))
deriving DecidableEq, Repr

/-- Direction argument: which of the OUT / IN degree columns are requested.
`"OUT"` is `⟨true, false⟩`, `"IN"` is `⟨false, true⟩`, `("IN","OUT")` is
`⟨true, true⟩`. -/
structure KDirection where
  hasOut : Bool
  hasIn : Bool
deriving DecidableEq, Repr

/-- Outcome of `node_k_degree`: how many times the external solver was invoked,
whether the max-dimension downgrade warning was logged, and the returned value
(`none` models the informational `return None` path). -/
structure KDegreeOutcome where
  solver_calls : ℕ
  warned_max_dim : Bool
  table : Option (List (ℕ × Option (List ℕ) × Option (List ℕ)))
deriving DecidableEq, Repr

/-- Column of source participations for one dimension: entry `v` counts the
simplices whose first vertex is `v` (dense form of
`np.unique(arr[:, 0], return_counts=True)` re-indexed over all nodes with
missing nodes at 0). -/
def outColumn (n : ℕ) (simps : List (List ℕ)) : List ℕ :=
  (List.range n).map (fun v => (simps.filter (fun s => s.headD 0 = v)).length)

/-- Column of sink participations for one dimension `dim`: entry `v` counts the
simplices whose vertex at position `dim` (the last vertex) is `v`. -/
def inColumn (n : ℕ) (dim : ℕ) (simps : List (List ℕ)) : List ℕ :=
  (List.range n).map (fun v => (simps.filter (fun s => s.getD dim 0 = v)).length)

/-- `np.arange(2, md + 1)` : the dimensions for which degrees are tabulated. -/
def dimsFrom2 (md : ℤ) : List ℕ := (List.range (md - 1).toNat).map (fun i => i + 2)

/-- Whether the downgrade warning `"The maximum dimension selected is not
attained"` is logged: requested `max_dim` is explicit and exceeds the
attainable `len(cell_counts) - 1`. -/
def kdWarned (len : ℕ) (max_dim : ℤ) : Bool :=
  decide (¬ max_dim = -1 ∧ (len : ℤ) - 1 < max_dim)

/-- The effective maximal dimension after downgrading: `-1` becomes the
attainable maximum, an explicit `max_dim` above the attainable maximum is
lowered to it. -/
def kdMd (len : ℕ) (max_dim : ℤ) : ℤ :=
  if max_dim = -1 then (len : ℤ) - 1
  else if (len : ℤ) - 1 < max_dim then (len : ℤ) - 1 else max_dim

/-- The generalized-degree table for dimensions `2 .. md`. -/
def kdTable (n : ℕ) (flagser_out : FlagserCountOutput) (direction : KDirection)
    (md : ℤ) : List (ℕ × Option (List ℕ) × Option (List ℕ)) :=
  (dimsFrom2 md).map (fun dim =>
    (dim,
     if direction.hasOut then
       some (outColumn n (flagser_out.simplices.getD dim [])) else none,
     if direction.hasIn then
       some (inColumn n dim (flagser_out.simplices.getD dim [])) else none))

/--
`node_k_degree(adj, direction, max_dim)` with the solver output supplied:
the source calls `pyflagsercount.flagser_count` exactly once, *before* any
dimension check, so every outcome records one solver invocation.  Then the
requested `max_dim` is downgraded to the attainable maximum (with a warning),
and if the resulting maximal dimension is below 2 the function prints an
informational message and returns `None`; otherwise it assembles the
generalized-degree table.
-/
def node_k_degree (n : ℕ) (flagser_out : FlagserCountOutput) (direction : KDirection)
    (max_dim : ℤ) : Option KDegreeOutcome :=
  if ¬ (max_dim > 1 ∨ max_dim = -1) then none
  else if ¬ (direction.hasOut = true ∨ direction.hasIn = true) then none
  else if kdMd flagser_out.cell_counts.length max_dim ≤ 1 ∧
      ¬ kdMd flagser_out.cell_counts.length max_dim = -1 then
    some ⟨1, kdWarned flagser_out.cell_counts.length max_dim, none⟩
  else
    some ⟨1, kdWarned flagser_out.cell_counts.length max_dim,
      some (kdTable n flagser_out direction
        (kdMd flagser_out.cell_counts.length max_dim))⟩

/-! ## `betti_counts` validation -/

inductive PyErr where
  | typeError
  | assertionError
deriving DecidableEq, Repr

/-- Python values relevant to the `approximation` argument. -/
inductive PyVal where
  | noneV
  | intListV (l : List ℤ)
  | intV (z : ℤ)
deriving DecidableEq, Repr

/-- Python membership `x in container`: testing membership in `None` (or in an
integer) raises `TypeError: argument of type ... is not iterable`. -/
def pyIn (x container : PyVal) : Except PyErr Bool :=
  match container with
  | PyVal.noneV => Except.error PyErr.typeError
  | PyVal.intV _ => Except.error PyErr.typeError
  | PyVal.intListV l => Except.ok (decide (∃ z ∈ l, x = PyVal.intV z))

/-- `np.count_nonzero(adj.diagonal())` for an `n × m` matrix. -/
def countNonzeroDiag (n m : ℕ) (adj : ℕ → ℕ → ℚ) : ℕ :=
  ((List.range (min n m)).filter (fun i => !(decide (adj i i = 0)))).length

/--
The validation prefix of `betti_counts`: zero-diagonal assertion, squareness
assertion, then the literal source assertion
`assert (not approximation in None) and (min_dim != 0)`.
Python evaluates `approximation in None` first, which raises `TypeError`
unconditionally (membership in `None` is not defined), before the boolean
combination or the assertion itself can be judged.
-/
def betti_counts_validate (n m : ℕ) (adj : ℕ → ℕ → ℚ) (min_dim : ℤ)
    (approximation : PyVal) : Except PyErr Unit :=
  if ¬ countNonzeroDiag n m adj = 0 then Except.error PyErr.assertionError
  else if ¬ n = m then Except.error PyErr.assertionError
  else
    match pyIn approximation PyVal.noneV with
    | Except.error e => Except.error e
    | Except.ok b =>
      if (!b) && decide (¬ min_dim = 0) then Except.ok ()
      else Except.error PyErr.assertionError

/-- The documented contract of `betti_counts` (from its docstring): validation
fails exactly when `approximation != None` and `min_dim != 0`; in particular
the default call (`approximation=None`, `min_dim=0`) passes. -/
def bettiDocContractOk (approximation : PyVal) (min_dim : ℤ) : Bool :=
  !(decide (¬ approximation = PyVal.noneV) && decide (¬ min_dim = 0))

/-! ## `chunk_approx_and_dims` -/

/-- The validation assert `approximation.size - 1 <= max_dim - min_dim`
(always true against `np.inf`). -/
def approxFits (len : ℕ) (min_dim : ℤ) : EInt → Bool
  | EInt.inf => true
  | EInt.int M => decide ((len : ℤ) - 1 ≤ M - min_dim)

/-- The condition `approximation.size < max_dim - min_dim + 1`
(always true against `np.inf`). -/
def sizeLtRange (len : ℕ) (min_dim : ℤ) : EInt → Bool
  | EInt.inf => true
  | EInt.int M => decide ((len : ℤ) < M - min_dim + 1)

/-- `np.split(np.arange(size) + min_dim, slice_indx)` : the dimension range
`[min_dim, min_dim + size)` split into maximal runs of constant approximation
value. -/
def dimChunks0 (min_dim : ℤ) (approx : List ℤ) : List (List EInt) :=
  (groupBySnd ((intRange min_dim approx.length).zip approx)).map
    (fun g => g.map (fun p => EInt.int p.1))

/-- The per-chunk approximation value: the final chunk gets `-1` when the
schedule is shorter than the range and does not itself end in `-1`; otherwise
`approximation[int(dim_chunks[j][0]) - min_dim]` with numpy index semantics. -/
def chunkValue (approx : List ℤ) (min_dim : ℤ) (sizeLt : Bool) (lastA : ℤ)
    (lastIdx : ℕ) (dc : List (List EInt)) (j : ℕ) : Option ℤ :=
  if sizeLt = true ∧ ¬ lastA = -1 ∧ j = lastIdx then some (-1)
  else
    match (dc.getD j []).headD EInt.inf with
    | EInt.inf => none
    | EInt.int z => npIndex approx (z - min_dim)

/-- The surgery on the run chunks: if the last schedule entry is `-1` the last
element of the last chunk is overwritten with `-1`, otherwise a final
`[last_end + 1, max_dim]` chunk is appended when the last run ends below
`max_dim`. -/
def dimChunksFinal (max_dim : EInt) (lastA : ℤ) (dc0 : List (List EInt)) :
    List (List EInt) :=
  if lastA = -1 then setLast dc0 (setLast (dc0.getLastD []) (EInt.int (-1)))
  else if EInt.ltb ((dc0.getLastD []).getLastD (EInt.int 0)) max_dim = true then
    dc0 ++ [[EInt.add1 ((dc0.getLastD []).getLastD (EInt.int 0)), max_dim]]
  else dc0

/--
`chunk_approx_and_dims(min_dim, max_dim, approximation)` : an empty schedule
raises (`approximation[-1]` is an `IndexError`), the length assertion is
checked, the dimension range is split into constant-value runs, the surgery of
`dimChunksFinal` is applied, and one approximation value is computed per chunk.
-/
def chunk_approx_and_dims (min_dim : ℤ) (max_dim : EInt) (approx : List ℤ) :
    Option (List (List EInt) × List ℤ) :=
  approx.getLast?.bind (fun lastA =>
    if approxFits approx.length min_dim max_dim = true then
      ((List.range (dimChunksFinal max_dim lastA (dimChunks0 min_dim approx)).length).mapM
        (chunkValue approx min_dim (sizeLtRange approx.length min_dim max_dim)
          lastA ((dimChunksFinal max_dim lastA (dimChunks0 min_dim approx)).length - 1)
          (dimChunksFinal max_dim lastA (dimChunks0 min_dim approx)))).map
        (fun ac => (dimChunksFinal max_dim lastA (dimChunks0 min_dim approx), ac))
    else none)

/-- First dimension of a chunk. -/
def chunkStart (c : List EInt) : EInt := c.headD EInt.inf

/-- The consumers (`persistence`, the inline variant in `betti_counts`)
reinterpret a chunk upper bound of `-1` as `np.inf`. -/
def interpEnd (e : EInt) : EInt := if e = EInt.int (-1) then EInt.inf else e

/-- Last dimension of a chunk under the consumer interpretation. -/
def chunkEnd (c : List EInt) : EInt := interpEnd (c.getLastD EInt.inf)

/-- The chunk covers dimension `d` (as consumed: the range from its first to
its interpreted last element). -/
def chunkCovers (c : List EInt) (d : ℤ) : Prop :=
  EInt.leb (chunkStart c) (EInt.int d) = true ∧
  EInt.leb (EInt.int d) (chunkEnd c) = true

/-- `IvlChain lo E cs` : the chunks `cs` tile the dimension interval from `lo`
to `E` contiguously and in increasing order: the first chunk starts at `lo`,
every chunk ends where the next one starts minus one, and the last chunk ends
at `E`. -/
inductive IvlChain : ℤ → EInt → List (List EInt) → Prop
  | single (lo : ℤ) (E : EInt) (c : List EInt)
      (hs : chunkStart c = EInt.int lo) (he : chunkEnd c = E)
      (hle : EInt.leb (EInt.int lo) E = true) : IvlChain lo E [c]
  | cons (lo e : ℤ) (E : EInt) (c : List EInt) (cs : List (List EInt))
      (hs : chunkStart c = EInt.int lo) (he : chunkEnd c = EInt.int e)
      (hle : lo ≤ e) (hrest : IvlChain (e + 1) E cs) : IvlChain lo E (c :: cs)

/-- `RunList lo n dgs` : `dgs` is a nonempty partition of `[lo, lo + n)` into
nonempty consecutive sub-ranges. -/
inductive RunList : ℤ → ℕ → List (List ℤ) → Prop
  | single (lo : ℤ) (n : ℕ) (h : 0 < n) : RunList lo n [intRange lo n]
  | cons (lo : ℤ) (r n : ℕ) (h : 0 < r) (hr : r < n) (rest : List (List ℤ))
      (hrest : RunList (lo + r) (n - r) rest) : RunList lo n (intRange lo r :: rest)

/-- The grouped `(dimension, approximation value)` pairs underlying
`dimChunks0`: dimensions zipped with their schedule values, split into
maximal runs of constant value. -/
def theGroups (min_dim : ℤ) (approx : List ℤ) : List (List (ℤ × ℤ)) :=
  groupBySnd ((intRange min_dim approx.length).zip approx)

/-- The dimension runs (first components of `theGroups`). -/
def theDGS (min_dim : ℤ) (approx : List ℤ) : List (List ℤ) :=
  (theGroups min_dim approx).map (List.map Prod.fst)

/-! ## Concrete example inputs -/

/-- A weighted matrix with weights `{0.1, 0.5, 0.9}` (spec example). -/
def exWeighted : List ((ℕ × ℕ) × ℚ) :=
  [((0, 1), 1 / 10), ((1, 0), 1 / 2), ((2, 0), 9 / 10)]

/-- A weighted matrix with two distinct weights `1 < 2`. -/
def exWeighted2 : List ((ℕ × ℕ) × ℚ) := [((0, 1), 1), ((1, 0), 2)]

/-- Matrix with `adj[0,1] = 1`, `adj[1,0] = -1`: a real-valued adjacency whose
two directions cancel in `adj + adj.T`. -/
def cexCancel : ℕ → ℕ → ℚ := fun i j =>
  if i = 0 ∧ j = 1 then 1 else if i = 1 ∧ j = 0 then -1 else 0

/-- Nonnegative matrix with a single edge `0 → 1`. -/
def exNonnegAdj : ℕ → ℕ → ℚ := fun i j => if i = 0 ∧ j = 1 then 1 else 0

/-- Integer adjacency with a single edge `0 → 1` (and no reciprocal edge). -/
def exDirAdj : ℕ → ℕ → ℤ := fun i j => if i = 0 ∧ j = 1 then 1 else 0

/-- Solver output for a complex with 3 vertices and 2 edges and nothing in
dimension 2 or higher. -/
def exFlat : FlagserCountOutput :=
  ⟨[3, 2], [[[0], [1], [2]], [[0, 1], [1, 2]]]⟩

/-- Solver output for a complex reaching dimension 2 (one triangle). -/
def exTri : FlagserCountOutput :=
  ⟨[3, 3, 1], [[[0], [1], [2]], [[0, 1], [0, 2], [1, 2]], [[0, 1, 2]]]⟩

/-- A 64-bit word with bit 63 clear, vertex 3 in the low slot and the sentinel
in the other two slots. -/
def w0val : ℕ := 3 + (2 ^ 21 - 1) * 2 ^ 21 + (2 ^ 21 - 1) * 2 ^ 42

/-- A 64-bit word with bit 63 set, vertex 5 in the low slot and the sentinel
in the other two slots. -/
def w1val : ℕ := 5 + (2 ^ 21 - 1) * 2 ^ 21 + (2 ^ 21 - 1) * 2 ^ 42 + 2 ^ 63

/-! # Theorems -/

/-! ## Generic list lemmas -/

theorem getD_map_lt {α β : Type} (f : α → β) (l : List α) (i : ℕ) (hi : i < l.length)
    (d : α) (d' : β) : (l.map f).getD i d' = f (l.getD i d) := by
  induction l generalizing i with
  | nil => cases hi
  | cons a t ih =>
    cases i with
    | zero => rfl
    | succ k => exact ih k (Nat.lt_of_succ_lt_succ hi)

theorem getD_append_left {α : Type} (l l' : List α) (i : ℕ) (hi : i < l.length) (d : α) :
    (l ++ l').getD i d = l.getD i d := by
  induction l generalizing i with
  | nil => cases hi
  | cons a t ih =>
    cases i with
    | zero => rfl
    | succ k => exact ih k (Nat.lt_of_succ_lt_succ hi)

theorem getD_append_right {α : Type} (l l' : List α) (i : ℕ) (hi : l.length ≤ i) (d : α) :
    (l ++ l').getD i d = l'.getD (i - l.length) d := by
  induction l generalizing i with
  | nil => simp
  | cons a t ih =>
    cases i with
    | zero => cases hi
    | succ k => simpa using ih k (Nat.le_of_succ_le_succ hi) 

theorem getD_out_of_range {α : Type} (l : List α) (i : ℕ) (hi : l.length ≤ i) (d : α) :
    l.getD i d = d := by
  induction l generalizing i with
  | nil => cases i <;> rfl
  | cons a t ih =>
    cases i with
    | zero => cases hi
    | succ k => exact ih k (Nat.le_of_succ_le_succ hi)

theorem getD_replicate {α : Type} (n i : ℕ) (x : α) : (List.replicate n x).getD i x = x := by
  induction n generalizing i with
  | zero => cases i <;> rfl
  | succ m ih =>
    cases i with
    | zero => rfl
    | succ k => exact ih k

theorem getD_mem_of_lt {α : Type} (l : List α) (i : ℕ) (hi : i < l.length) (d : α) :
    l.getD i d ∈ l := by
  induction l generalizing i with
  | nil => cases hi
  | cons a t ih =>
    cases i with
    | zero => exact List.mem_cons_self _ _
    | succ k => exact List.mem_cons_of_mem _ (ih k (Nat.lt_of_succ_lt_succ hi))

theorem getLastD_append_single {α : Type} (l : List α) (x : α) (d : α) :
    (l ++ [x]).getLastD d = x := by
  induction l generalizing d with
  | nil => rfl
  | cons a t ih =>
    rw [List.cons_append, List.getLastD_cons]
    exact ih a

theorem getLastD_setLast {α : Type} (l : List α) (x d : α) :
    (setLast l x).getLastD d = x := getLastD_append_single _ _ _

theorem setLast_cons_of_ne_nil {α : Type} (a : α) (l : List α) (hl : l ≠ []) (x : α) :
    setLast (a :: l) x = a :: setLast l x := by
  unfold setLast
  rw [List.dropLast_cons_of_ne_nil hl]
  rfl

theorem mapM_ok_of_forall {α β : Type} (f : α → Option β) (g : α → β) :
    ∀ l : List α, (∀ a ∈ l, f a = some (g a)) → l.mapM f = some (l.map g) := by
  intro l h
  induction l with
  | nil => rfl
  | cons a t ih =>
    rw [List.mapM_cons, h a (List.mem_cons_self _ _),
      ih (fun b hb => h b (List.mem_cons_of_mem _ hb))]
    rfl

theorem mapM_ok_of_forall_except {α β : Type} (f : α → Except String β) (g : α → β) :
    ∀ l : List α, (∀ a ∈ l, f a = Except.ok (g a)) → l.mapM f = Except.ok (l.map g) := by
  intro l h
  induction l with
  | nil => rfl
  | cons a t ih =>
    rw [List.mapM_cons, h a (List.mem_cons_self _ _),
      ih (fun b hb => h b (List.mem_cons_of_mem _ hb))]
    rfl

/-! ## `at_weight_edges`: characterization -/

theorem zip_map_fst_snd_map (g : ℚ → ℚ) (l : List ((ℕ × ℕ) × ℚ)) :
    (l.map Prod.fst).zip ((l.map Prod.snd).map g) = l.map (fun e => (e.1, g e.2)) := by
  induction l with
  | nil => rfl
  | cons a t ih =>
    simp only [List.map_cons, List.zip_cons_cons]
    rw [ih]

theorem filter_map_thresh (P : ℚ → Prop) [DecidablePred P] (adj : List ((ℕ × ℕ) × ℚ)) :
    (adj.map (fun e => (e.1, if P e.2 then e.2 else 0))).filter
        (fun e => !(decide (e.2 = 0))) =
      (adj.filter (fun e => !(decide (e.2 = 0)))).filter (fun e => decide (P e.2)) := by
  induction adj with
  | nil => rfl
  | cons a l ih =>
    by_cases h1 : P a.2
    · by_cases h2 : a.2 = 0
      · simp [List.filter_cons, h1, h2, ih]
      · simp [List.filter_cons, h1, h2, ih]
    · by_cases h2 : a.2 = 0
      · simp [List.filter_cons, h1, h2, ih]
      · simp [List.filter_cons, h1, h2, ih]

theorem at_weight_edges_strength (adj : List ((ℕ × ℕ) × ℚ)) (t : ℚ) :
    at_weight_edges adj t "strength" =
      Except.ok ((storedEdges adj).filter (fun e => decide (t ≤ e.2))) := by
  unfold at_weight_edges thresholdData storedEdges
  rw [if_pos rfl]
  simp only [Except.map]
  rw [zip_map_fst_snd_map (fun w => if t ≤ w then w else 0),
    filter_map_thresh (fun w => t ≤ w)]

theorem at_weight_edges_distance (adj : List ((ℕ × ℕ) × ℚ)) (t : ℚ) :
    at_weight_edges adj t "distance" =
      Except.ok ((storedEdges adj).filter (fun e => decide (e.2 ≤ t))) := by
  unfold at_weight_edges thresholdData storedEdges
  rw [if_neg (by decide), if_pos rfl]
  simp only [Except.map]
  rw [zip_map_fst_snd_map (fun w => if w ≤ t then w else 0),
    filter_map_thresh (fun w => w ≤ t)]

/--
C4: for every sparse weighted matrix and threshold, `at_weight_edges` keeps
exactly the input's edges (nonzero stored entries) with weight `≥ t` under
`method='strength'` (resp. `≤ t` under `'distance'`), each with its original
weight, and removes every other position from the sparse structure; any other
method raises a `ValueError`.
-/
theorem at_weight_edges_thresholds (adj : List ((ℕ × ℕ) × ℚ)) (t : ℚ) (m : String)
    (h1 : ¬ m = "strength") (h2 : ¬ m = "distance") :
    at_weight_edges adj t "strength" =
        Except.ok ((storedEdges adj).filter (fun e => decide (t ≤ e.2))) ∧
    at_weight_edges adj t "distance" =
        Except.ok ((storedEdges adj).filter (fun e => decide (e.2 ≤ t))) ∧
    at_weight_edges adj t m = Except.error "Method has to be strength or distance" := by
  refine ⟨at_weight_edges_strength adj t, at_weight_edges_distance adj t, ?_⟩
  unfold at_weight_edges thresholdData
  rw [if_neg h1, if_neg h2]
  rfl

/-- Witness for C4 at the spec's example (weights `{0.1, 0.5, 0.9}`,
threshold `0.5`) and the invalid method string `"w"`. -/
theorem at_weight_edges_thresholds_witness :
    ¬ "w" = "strength" ∧ ¬ "w" = "distance" ∧
    (at_weight_edges exWeighted (1 / 2) "strength" =
        Except.ok ((storedEdges exWeighted).filter (fun e => decide ((1 : ℚ) / 2 ≤ e.2))) ∧
      at_weight_edges exWeighted (1 / 2) "distance" =
        Except.ok ((storedEdges exWeighted).filter (fun e => decide (e.2 ≤ (1 : ℚ) / 2))) ∧
      at_weight_edges exWeighted (1 / 2) "w" =
        Except.error "Method has to be strength or distance") :=
  ⟨by decide, by decide,
    at_weight_edges_thresholds exWeighted (1 / 2) "w" (by decide) (by decide)⟩

/-! ## C9: idempotence and composition of thresholding -/

theorem filter_filter_custom {α : Type} (p q : α → Bool) (l : List α) :
    (l.filter p).filter q = l.filter (fun a => p a && q a) := by
  induction l with
  | nil => rfl
  | cons a t ih =>
    cases hp : p a
    · simp [List.filter_cons, hp, ih]
    · cases hq : q a <;> simp [List.filter_cons, hp, hq, ih]

theorem storedEdges_filter (l : List ((ℕ × ℕ) × ℚ)) (p : (ℕ × ℕ) × ℚ → Bool) :
    storedEdges ((storedEdges l).filter p) = (storedEdges l).filter p := by
  unfold storedEdges
  exact List.filter_eq_self.mpr
    (fun a ha => (List.mem_filter.mp (List.mem_of_mem_filter ha)).2)

theorem filter_sub_self (l : List ((ℕ × ℕ) × ℚ)) (p : (ℕ × ℕ) × ℚ → Bool) :
    ((storedEdges l).filter p).filter p = (storedEdges l).filter p :=
  List.filter_eq_self.mpr (fun a ha => (List.mem_filter.mp ha).2)

/--
C9: thresholding is idempotent — re-applying `at_weight_edges` with the same
threshold and method returns the same stored edges and weights — and for
`method='strength'` thresholding at `t` and then at `t' ≥ t` equals
thresholding the original matrix at `t'` directly (dually for `'distance'`
with the thresholds in the opposite order).
-/
theorem at_weight_edges_idempotent_comp (adj : List ((ℕ × ℕ) × ℚ)) (t tp : ℚ)
    (ht : t ≤ tp) (rs rd rdp : List ((ℕ × ℕ) × ℚ))
    (hrs : at_weight_edges adj t "strength" = Except.ok rs)
    (hrd : at_weight_edges adj t "distance" = Except.ok rd)
    (hrdp : at_weight_edges adj tp "distance" = Except.ok rdp) :
    at_weight_edges rs t "strength" = Except.ok rs ∧
    at_weight_edges rd t "distance" = Except.ok rd ∧
    at_weight_edges rs tp "strength" = at_weight_edges adj tp "strength" ∧
    at_weight_edges rdp t "distance" = at_weight_edges adj t "distance" := by
  rw [at_weight_edges_strength] at hrs
  rw [at_weight_edges_distance] at hrd
  rw [at_weight_edges_distance] at hrdp
  obtain rfl : _ = rs := Except.ok.inj hrs
  obtain rfl : _ = rd := Except.ok.inj hrd
  obtain rfl : _ = rdp := Except.ok.inj hrdp
  refine ⟨?_, ?_, ?_, ?_⟩
  · rw [at_weight_edges_strength, storedEdges_filter, filter_sub_self]
  · rw [at_weight_edges_distance, storedEdges_filter, filter_sub_self]
  · rw [at_weight_edges_strength, at_weight_edges_strength, storedEdges_filter,
      filter_filter_custom]
    refine congrArg Except.ok (List.filter_congr ?_)
    intro a _
    by_cases h : tp ≤ a.2
    · simp [h, le_trans ht h]
    · simp [h]
  · rw [at_weight_edges_distance, at_weight_edges_distance, storedEdges_filter,
      filter_filter_custom]
    refine congrArg Except.ok (List.filter_congr ?_)
    intro a _
    by_cases h : a.2 ≤ t
    · simp [h, le_trans h ht]
    · simp [h]

/-- Witness for C9 at the two-weight matrix, thresholds `1 ≤ 2`. -/
theorem at_weight_edges_idempotent_comp_witness :
    (1 : ℚ) ≤ 2 ∧
    at_weight_edges exWeighted2 1 "strength" = Except.ok exWeighted2 ∧
    at_weight_edges exWeighted2 1 "distance" = Except.ok [((0, 1), 1)] ∧
    at_weight_edges exWeighted2 2 "distance" = Except.ok exWeighted2 ∧
    (at_weight_edges exWeighted2 1 "strength" = Except.ok exWeighted2 ∧
     at_weight_edges [((0, 1), 1)] 1 "distance" = Except.ok [((0, 1), 1)] ∧
     at_weight_edges exWeighted2 2 "strength" = at_weight_edges exWeighted2 2 "strength" ∧
     at_weight_edges exWeighted2 1 "distance" = at_weight_edges exWeighted2 1 "distance") := by
  have hs : at_weight_edges exWeighted2 1 "strength" = Except.ok exWeighted2 := rfl
  have hd : at_weight_edges exWeighted2 1 "distance" = Except.ok [((0, 1), 1)] := rfl
  have hdp : at_weight_edges exWeighted2 2 "distance" = Except.ok exWeighted2 := rfl
  exact ⟨by norm_num, hs, hd, hdp,
    at_weight_edges_idempotent_comp exWeighted2 1 2 (by norm_num) _ _ _ hs hd hdp⟩

/-! ## C10: empty weighted matrix -/

/--
C10: on a weighted matrix with no stored entries `filtration_weights` returns
the empty threshold sequence without error for both methods, and
`filtered_simplex_counts` returns the empty table; its result does not depend
on the solver feature at all (no solver invocation occurs — each table row
corresponds to exactly one invocation).
-/
theorem filtration_weights_empty_matrix (m : String)
    (hm : m = "strength" ∨ m = "distance")
    (counts counts2 : List ((ℕ × ℕ) × ℚ) → List ℕ) :
    filtration_weights [] m = Except.ok [] ∧
    filtered_simplex_counts counts [] m = Except.ok [] ∧
    filtered_simplex_counts counts [] m = filtered_simplex_counts counts2 [] m := by
  rcases hm with h | h <;> subst h
  · exact ⟨rfl, rfl, rfl⟩
  · exact ⟨rfl, rfl, rfl⟩

/-- Witness for C10 with `method="strength"` and two different solver stubs. -/
theorem filtration_weights_empty_matrix_witness :
    ("strength" = "strength" ∨ "strength" = "distance") ∧
    (filtration_weights [] "strength" = Except.ok [] ∧
     filtered_simplex_counts (fun mm => [mm.length]) [] "strength" = Except.ok [] ∧
     filtered_simplex_counts (fun mm => [mm.length]) [] "strength" =
       filtered_simplex_counts (fun _ => [3, 1]) [] "strength") :=
  ⟨Or.inl rfl, filtration_weights_empty_matrix "strength" (Or.inl rfl) _ _⟩

/-! ## C7: underlying undirected matrix -/

/--
C7 counterexample: for the real-valued matrix with `adj[0,1] = 1` and
`adj[1,0] = -1` (zero elsewhere, zero diagonal), the two directions cancel in
`adj + adj.T`, so `underlying_undirected_matrix` reports no undirected edge at
`(0,1)` even though an edge exists in both directions — refuting the claimed
equivalence with "either direction nonzero".
-/
theorem underlying_undirected_cex :
    ¬ (underlying_undirected_matrix cexCancel 0 1 = true ↔
        (¬ cexCancel 0 1 = 0 ∨ ¬ cexCancel 1 0 = 0)) := by
  intro h
  have h2 : ¬ cexCancel 0 1 = 0 := by unfold cexCancel; norm_num
  have h1 : underlying_undirected_matrix cexCancel 0 1 = true := h.mpr (Or.inl h2)
  have h3 : cexCancel 0 1 + cexCancel 1 0 = 0 := by unfold cexCancel; norm_num
  simp only [underlying_undirected_matrix, astypeBool, matAdd, matT,
    decide_eq_true_eq] at h1
  exact h1 h3

/--
C7 amended: entry `(i,j)` of `underlying_undirected_matrix` is `true` iff
`adj[i,j] + adj[j,i] ≠ 0`; when both entries are nonnegative (the adjacency
weights of the data model) this coincides with the claimed symmetric closure:
`true` iff an edge exists in either direction.
-/
theorem underlying_undirected_amended (adj : ℕ → ℕ → ℚ) (i j : ℕ)
    (h1 : 0 ≤ adj i j) (h2 : 0 ≤ adj j i) :
    (underlying_undirected_matrix adj i j = true ↔ ¬ adj i j + adj j i = 0) ∧
    (underlying_undirected_matrix adj i j = true ↔
      (¬ adj i j = 0 ∨ ¬ adj j i = 0)) := by
  have key : underlying_undirected_matrix adj i j = true ↔ ¬ adj i j + adj j i = 0 := by
    unfold underlying_undirected_matrix astypeBool matAdd matT
    simp
  refine ⟨key, key.trans ?_⟩
  constructor
  · intro hsum
    by_contra hc
    push_neg at hc
    exact hsum (by rw [hc.1, hc.2, add_zero])
  · rintro (h | h) hsum
    · exact h (by linarith)
    · exact h (by linarith)

/-- Witness for C7 at a nonnegative single-edge matrix. -/
theorem underlying_undirected_amended_witness :
    (0 : ℚ) ≤ exNonnegAdj 0 1 ∧ (0 : ℚ) ≤ exNonnegAdj 1 0 ∧
    ((underlying_undirected_matrix exNonnegAdj 0 1 = true ↔
        ¬ exNonnegAdj 0 1 + exNonnegAdj 1 0 = 0) ∧
     (underlying_undirected_matrix exNonnegAdj 0 1 = true ↔
        (¬ exNonnegAdj 0 1 = 0 ∨ ¬ exNonnegAdj 1 0 = 0))) :=
  ⟨by norm_num [exNonnegAdj], by norm_num [exNonnegAdj],
    underlying_undirected_amended exNonnegAdj 0 1 (by norm_num [exNonnegAdj])
      (by norm_num [exNonnegAdj])⟩

/-! ## C6: bidirectional edge counts -/

/--
C6 counterexample: with the single directed edge `0 → 1` and the single
1-simplex `[0, 1]`, the `(0,1)` entry computed by the code is
`adjacency[1,0] = 0`, not the claimed `adjacency[0,1] = 1`: the code
accumulates `dense[simplex].T[simplex]`, the transpose of the induced
sub-adjacency matrix.
-/
theorem bedge_counts_cex :
    ¬ count_bedges exDirAdj [[0, 1]] 0 1 =
        (([[0, 1]] : List (List ℕ)).map
          (fun s => exDirAdj (s.getD 0 0) (s.getD 1 0))).sum := by decide

/--
C6 amended: for dimension `k`, `bedge_counts` produces the matrix whose
`(p,q)` entry is the sum over all `k`-simplices `s` of
`adjacency[s_q, s_p]` — the transpose of the claimed induced sub-adjacency —
accumulated elementwise across the simplices of that dimension.
-/
theorem bedge_counts_entries (dense : ℕ → ℕ → ℤ) (sss : List (List (List ℕ)))
    (k p q : ℕ) (hk : k < sss.length)
    (hdim : ¬ ((sss.getD k []).headD []).length = 1) :
    (bedge_counts dense sss).getD k none =
      some (count_bedges dense (sss.getD k [])) ∧
    count_bedges dense (sss.getD k []) p q =
      ((sss.getD k []).map (fun s => dense (s.getD q 0) (s.getD p 0))).sum := by
  constructor
  · unfold bedge_counts
    rw [getD_map_lt (count_bedges_table dense) sss k hk []]
    unfold count_bedges_table
    rw [if_neg hdim]
  · rfl

/-- Witness for C6 at the single-edge adjacency with one 1-simplex. -/
theorem bedge_counts_entries_witness :
    (1 < ([[[0], [1]], [[0, 1]]] : List (List (List ℕ))).length) ∧
    ¬ ((([[[0], [1]], [[0, 1]]] : List (List (List ℕ))).getD 1 []).headD []).length = 1 ∧
    ((bedge_counts exDirAdj [[[0], [1]], [[0, 1]]]).getD 1 none =
        some (count_bedges exDirAdj (([[[0], [1]], [[0, 1]]] :
          List (List (List ℕ))).getD 1 [])) ∧
      count_bedges exDirAdj (([[[0], [1]], [[0, 1]]] :
          List (List (List ℕ))).getD 1 []) 0 1 =
        ((([[[0], [1]], [[0, 1]]] : List (List (List ℕ))).getD 1 []).map
          (fun s => exDirAdj (s.getD 1 0) (s.getD 0 0))).sum) :=
  ⟨by decide, by decide,
    bedge_counts_entries exDirAdj [[[0], [1]], [[0, 1]]] 1 0 1 (by decide) (by decide)⟩

/-! ## C1: the `betti_counts` validation assertion -/

/--
C1 (code bug): on the default call — square zero-diagonal matrix,
`approximation=None`, `min_dim=0` — the validation of `betti_counts` raises
`TypeError` (the literal assertion evaluates `approximation in None`, a
membership test in `None`), although the documented contract says this call
passes validation (it fails only when `approximation != None` and
`min_dim != 0`).
-/
theorem betti_counts_default_call_raises :
    betti_counts_validate 2 2 (fun _ _ => 0) 0 PyVal.noneV =
      Except.error PyErr.typeError ∧
    bettiDocContractOk PyVal.noneV 0 = true :=
  ⟨rfl, rfl⟩

/-! ## C8: `node_k_degree` degeneracies -/

/--
C8 counterexample: for a complex with no simplices of dimension ≥ 2 (three
vertices, two edges) the function does short-circuit with the informational
`None` result, but only *after* invoking the external solver once (the
attainable dimension is read off the solver's `cell_counts`) — the recorded
number of solver invocations is 1, not the claimed 0.
-/
theorem node_k_degree_cex :
    node_k_degree 3 exFlat (KDirection.mk true true) (-1) =
      some ⟨1, false, none⟩ ∧
    ¬ (node_k_degree 3 exFlat (KDirection.mk true true) (-1)).map
        KDegreeOutcome.solver_calls = some 0 := by
  refine ⟨rfl, ?_⟩
  intro hq
  rw [show node_k_degree 3 exFlat (KDirection.mk true true) (-1) =
      some ⟨1, false, none⟩ from rfl] at hq
  exact absurd (Option.some.inj hq) (by decide)

/--
C8 amended: for every valid call, the solver is invoked exactly once; when the
complex has no simplices of dimension ≥ 2 the function short-circuits *after*
that single solver call with the informational `None` result; and when the
requested `max_dim` exceeds the attainable maximal dimension the computation
downgrades to the attainable maximum with a warning rather than failing:
apart from the warning flag it returns exactly the unbounded (`max_dim = -1`)
result.
-/
theorem node_k_degree_amended (n : ℕ) (out : FlagserCountOutput) (dir : KDirection)
    (max_dim : ℤ) (hval : max_dim > 1 ∨ max_dim = -1)
    (hdir : dir.hasOut = true ∨ dir.hasIn = true)
    (hpos : 0 < out.cell_counts.length) :
    (out.cell_counts.length ≤ 2 →
      node_k_degree n out dir max_dim =
        some ⟨1, kdWarned out.cell_counts.length max_dim, none⟩) ∧
    (¬ max_dim = -1 → (out.cell_counts.length : ℤ) - 1 < max_dim →
      ∃ o, node_k_degree n out dir (-1) = some o ∧ o.solver_calls = 1 ∧
        o.warned_max_dim = false ∧
        node_k_degree n out dir max_dim = some ⟨1, true, o.table⟩) := by
  constructor
  · intro hlen
    have hmd : kdMd out.cell_counts.length max_dim =
        (out.cell_counts.length : ℤ) - 1 := by
      unfold kdMd
      by_cases h : max_dim = -1
      · rw [if_pos h]
      · rw [if_neg h, if_pos]
        rcases hval with h2 | h2
        · omega
        · exact absurd h2 h
    unfold node_k_degree
    rw [if_neg (not_not_intro hval), if_neg (not_not_intro hdir),
      if_pos (by rw [hmd]; omega)]
  · intro hne hgt
    have hmd1 : kdMd out.cell_counts.length max_dim =
        (out.cell_counts.length : ℤ) - 1 := by
      unfold kdMd; rw [if_neg hne, if_pos hgt]
    have hmd2 : kdMd out.cell_counts.length (-1) =
        (out.cell_counts.length : ℤ) - 1 := by
      unfold kdMd; rw [if_pos rfl]
    have hw1 : kdWarned out.cell_counts.length max_dim = true := by
      unfold kdWarned
      simp only [decide_eq_true_eq]
      exact ⟨hne, hgt⟩
    have hw2 : kdWarned out.cell_counts.length (-1) = false := by
      unfold kdWarned
      simp
    by_cases hc : kdMd out.cell_counts.length (-1) ≤ 1 ∧
        ¬ kdMd out.cell_counts.length (-1) = -1
    · refine ⟨⟨1, false, none⟩, ?_, rfl, rfl, ?_⟩
      · unfold node_k_degree
        rw [if_neg (not_not_intro (Or.inr rfl)), if_neg (not_not_intro hdir),
          if_pos hc, hw2]
      · unfold node_k_degree
        rw [if_neg (not_not_intro hval), if_neg (not_not_intro hdir),
          if_pos (by rw [hmd1, ← hmd2]; exact hc), hw1]
    · refine ⟨⟨1, false, some (kdTable n out dir ((out.cell_counts.length : ℤ) - 1))⟩,
        ?_, rfl, rfl, ?_⟩
      · unfold node_k_degree
        rw [if_neg (not_not_intro (Or.inr rfl)), if_neg (not_not_intro hdir),
          if_neg hc, hw2, hmd2]
      · unfold node_k_degree
        rw [if_neg (not_not_intro hval), if_neg (not_not_intro hdir),
          if_neg (by rw [hmd1, ← hmd2]; exact hc), hw1, hmd1]

/-- Witness for C8 at a complex reaching dimension 2 with `max_dim = 5`. -/
theorem node_k_degree_amended_witness :
    ((5 : ℤ) > 1 ∨ (5 : ℤ) = -1) ∧
    ((KDirection.mk true true).hasOut = true ∨
      (KDirection.mk true true).hasIn = true) ∧
    0 < exTri.cell_counts.length ∧
    ((exTri.cell_counts.length ≤ 2 →
        node_k_degree 3 exTri (KDirection.mk true true) 5 =
          some ⟨1, kdWarned exTri.cell_counts.length 5, none⟩) ∧
     (¬ (5 : ℤ) = -1 → (exTri.cell_counts.length : ℤ) - 1 < 5 →
        ∃ o, node_k_degree 3 exTri (KDirection.mk true true) (-1) = some o ∧
          o.solver_calls = 1 ∧ o.warned_max_dim = false ∧
          node_k_degree 3 exTri (KDirection.mk true true) 5 =
            some ⟨1, true, o.table⟩)) :=
  ⟨Or.inl (by norm_num), Or.inl rfl, by decide,
    node_k_degree_amended 3 exTri (KDirection.mk true true) 5 (Or.inl (by norm_num))
      (Or.inl rfl) (by decide)⟩

/-! ## C3: filtered simplex counts -/

theorem mem_insertUnique (x a : ℚ) (l : List ℚ) :
    a ∈ insertUnique x l ↔ a = x ∨ a ∈ l := by
  induction l with
  | nil => simp [insertUnique]
  | cons y ys ih =>
    unfold insertUnique
    by_cases h1 : x < y
    · rw [if_pos h1]
      simp only [List.mem_cons]
    · rw [if_neg h1]
      by_cases h2 : x = y
      · rw [if_pos h2]
        subst h2
        simp only [List.mem_cons]
        tauto
      · rw [if_neg h2]
        simp only [List.mem_cons, ih]
        tauto

theorem insertUnique_sorted (x : ℚ) (l : List ℚ) (h : l.Sorted (· < ·)) :
    (insertUnique x l).Sorted (· < ·) := by
  induction l with
  | nil => simp [insertUnique]
  | cons y ys ih =>
    rw [List.sorted_cons] at h
    unfold insertUnique
    by_cases h1 : x < y
    · rw [if_pos h1, List.sorted_cons]
      refine ⟨?_, List.sorted_cons.mpr h⟩
      intro b hb
      rcases List.mem_cons.mp hb with rfl | hb
      · exact h1
      · exact lt_trans h1 (h.1 b hb)
    · rw [if_neg h1]
      by_cases h2 : x = y
      · rw [if_pos h2]
        exact List.sorted_cons.mpr h
      · rw [if_neg h2, List.sorted_cons]
        have hyx : y < x := lt_of_le_of_ne (not_lt.mp h1) (fun he => h2 he.symm)
        refine ⟨?_, ih h.2⟩
        intro b hb
        rcases (mem_insertUnique x b ys).mp hb with rfl | hb
        · exact hyx
        · exact h.1 b hb

theorem npUnique_sorted (l : List ℚ) : (npUnique l).Sorted (· < ·) := by
  induction l with
  | nil => simp [npUnique]
  | cons a t ih => exact insertUnique_sorted a (npUnique t) ih

theorem npUnique_nodup (l : List ℚ) : (npUnique l).Nodup :=
  (npUnique_sorted l).nodup

theorem le_tableWidth (rows : List (ℚ × List ℕ)) (r : ℚ × List ℕ) (hr : r ∈ rows) :
    r.2.length ≤ tableWidth rows := by
  induction rows with
  | nil => cases hr
  | cons a t ih =>
    rcases List.mem_cons.mp hr with rfl | hr
    · exact Nat.le_max_left _ _
    · exact Nat.le_trans (ih hr) (Nat.le_max_right _ _)

theorem padTable_getD (rows : List (ℚ × List ℕ)) (i : ℕ) (hi : i < rows.length) :
    (padTable rows).getD i (0, []) =
      ((rows.getD i (0, [])).1,
        (rows.getD i (0, [])).2 ++
          List.replicate (tableWidth rows - (rows.getD i (0, [])).2.length) 0) := by
  unfold padTable
  exact getD_map_lt
    (fun r => (r.1, r.2 ++ List.replicate (tableWidth rows - r.2.length) 0))
    rows i hi (0, []) (0, [])

theorem padTable_props (rows : List (ℚ × List ℕ)) (i j : ℕ) (hi : i < rows.length) :
    ((padTable rows).getD i (0, [])).2.length = tableWidth rows ∧
    (j < tableWidth rows →
      ((padTable rows).getD i (0, [])).2.getD j 0 = (rows.getD i (0, [])).2.getD j 0) := by
  have hgd := padTable_getD rows i hi
  have hle := le_tableWidth rows _ (getD_mem_of_lt rows i hi (0, []))
  constructor
  · rw [hgd]
    simp only [List.length_append, List.length_replicate]
    omega
  · intro hj
    rw [hgd]
    by_cases hc : j < (rows.getD i (0, [])).2.length
    · exact getD_append_left _ _ j hc 0
    · show ((rows.getD i (0, [])).2 ++ List.replicate _ 0).getD j 0 = _
      rw [getD_append_right _ _ j (Nat.le_of_not_lt hc) 0, getD_replicate,
        getD_out_of_range _ j (Nat.le_of_not_lt hc) 0]

theorem fsc_spec_core (counts : List ((ℕ × ℕ) × ℚ) → List ℕ)
    (adj : List ((ℕ × ℕ) × ℚ)) (m : String) (aw : ℚ → List ((ℕ × ℕ) × ℚ))
    (ws : List ℚ) (i j : ℕ)
    (hfw : filtration_weights (adj.map Prod.snd) m = Except.ok ws)
    (haw : ∀ w, at_weight_edges adj w m = Except.ok (aw w)) :
    ∃ rows : List (ℚ × List ℕ),
      filtered_simplex_counts counts adj m = Except.ok (padTable rows) ∧
      rows.map Prod.fst = ws.reverse ∧
      (i < rows.length →
        ∃ adj_i, at_weight_edges adj (ws.reverse.getD i 0) m = Except.ok adj_i ∧
          rows.getD i (0, []) = (ws.reverse.getD i 0, counts adj_i)) ∧
      (i < rows.length →
        ((padTable rows).getD i (0, [])).2.length = tableWidth rows ∧
        (j < tableWidth rows →
          ((padTable rows).getD i (0, [])).2.getD j 0 =
            (rows.getD i (0, [])).2.getD j 0)) := by
  refine ⟨ws.reverse.map (fun w => (w, counts (aw w))), ?_, ?_, ?_,
    fun hi => padTable_props _ i j hi⟩
  · unfold filtered_simplex_counts
    rw [hfw]
    simp only [Except.bind]
    rw [mapM_ok_of_forall_except _ (fun w => (w, counts (aw w))) ws.reverse
      (fun w _ => by rw [haw w]; rfl)]
    rfl
  · rw [List.map_map]
    have hcomp : (Prod.fst ∘ fun w : ℚ => (w, counts (aw w))) = fun w : ℚ => w := rfl
    rw [hcomp, List.map_id']
  · intro hi
    rw [List.length_map] at hi
    refine ⟨aw (ws.reverse.getD i 0), haw _, ?_⟩
    rw [getD_map_lt (fun w => (w, counts (aw w))) ws.reverse i hi 0]

/--
C3 (amended): `filtered_simplex_counts` computes the feature exactly once per
distinct filtration threshold, but processes and tabulates the thresholds in
the order `weights[::-1]` — the *reverse* of the filtration's entry order,
i.e. lowest strength values first under `method='strength'` and highest
distance values first under `'distance'` — producing a table indexed by
threshold in which dimensions missing at a given threshold read as zero.
-/
theorem filtered_simplex_counts_ordered (counts : List ((ℕ × ℕ) × ℚ) → List ℕ)
    (adj : List ((ℕ × ℕ) × ℚ)) (m : String) (i j : ℕ)
    (hm : m = "strength" ∨ m = "distance") :
    ∃ ws rows,
      filtration_weights (adj.map Prod.snd) m = Except.ok ws ∧
      ws.Nodup ∧
      filtered_simplex_counts counts adj m = Except.ok (padTable rows) ∧
      rows.map Prod.fst = ws.reverse ∧
      (i < rows.length →
        ∃ adj_i, at_weight_edges adj (ws.reverse.getD i 0) m = Except.ok adj_i ∧
          rows.getD i (0, []) = (ws.reverse.getD i 0, counts adj_i)) ∧
      (i < rows.length →
        ((padTable rows).getD i (0, [])).2.length = tableWidth rows ∧
        (j < tableWidth rows →
          ((padTable rows).getD i (0, [])).2.getD j 0 =
            (rows.getD i (0, [])).2.getD j 0)) := by
  rcases hm with h | h <;> subst h
  · obtain ⟨rows, h1, h2, h3, h4⟩ :=
      fsc_spec_core counts adj "strength"
        (fun w => (storedEdges adj).filter (fun e => decide (w ≤ e.2)))
        (npUnique (adj.map Prod.snd)).reverse i j rfl
        (fun w => at_weight_edges_strength adj w)
    exact ⟨(npUnique (adj.map Prod.snd)).reverse, rows, rfl,
      by simp [npUnique_nodup], h1, h2, h3, h4⟩
  · obtain ⟨rows, h1, h2, h3, h4⟩ :=
      fsc_spec_core counts adj "distance"
        (fun w => (storedEdges adj).filter (fun e => decide (e.2 ≤ w)))
        (npUnique (adj.map Prod.snd)) i j rfl
        (fun w => at_weight_edges_distance adj w)
    exact ⟨npUnique (adj.map Prod.snd), rows, rfl, npUnique_nodup _, h1, h2, h3, h4⟩

/-- Witness for C3 (amended) at the two-weight matrix under `strength`. -/
theorem filtered_simplex_counts_ordered_witness :
    ("strength" = "strength" ∨ "strength" = "distance") ∧
    (∃ ws rows,
      filtration_weights (exWeighted2.map Prod.snd) "strength" = Except.ok ws ∧
      ws.Nodup ∧
      filtered_simplex_counts (fun mm => [mm.length]) exWeighted2 "strength" =
        Except.ok (padTable rows) ∧
      rows.map Prod.fst = ws.reverse ∧
      (0 < rows.length →
        ∃ adj_i, at_weight_edges exWeighted2 (ws.reverse.getD 0 0) "strength" =
            Except.ok adj_i ∧
          rows.getD 0 (0, []) = (ws.reverse.getD 0 0, (fun mm => [mm.length]) adj_i)) ∧
      (0 < rows.length →
        ((padTable rows).getD 0 (0, [])).2.length = tableWidth rows ∧
        (0 < tableWidth rows →
          ((padTable rows).getD 0 (0, [])).2.getD 0 0 =
            (rows.getD 0 (0, [])).2.getD 0 0))) :=
  ⟨Or.inl rfl,
    filtered_simplex_counts_ordered (fun mm => [mm.length]) exWeighted2 "strength" 0 0
      (Or.inl rfl)⟩

/--
C3 counterexample: with weights `{1, 2}` under `method='strength'` the
filtration entry order is `[2, 1]` (highest strength first), but the table is
built in processing order `[1, 2]` — the thresholds are visited lowest-first
(`weights[::-1]`), the reverse of the claimed order.
-/
theorem filtered_simplex_counts_order_cex :
    filtration_weights (exWeighted2.map Prod.snd) "strength" = Except.ok [2, 1] ∧
    (filtered_simplex_counts (fun mm => [mm.length]) exWeighted2 "strength").map
      (fun rows => rows.map Prod.fst) = Except.ok [1, 2] ∧
    ¬ ([1, 2] : List ℚ) = [2, 1] :=
  ⟨rfl, rfl, by decide⟩

/-! ## C5: the binary simplex decoder -/

theorem groupBySnd_cons_nil {α β : Type} [DecidableEq β] (p : α × β)
    (l : List (α × β)) (h : groupBySnd l = []) : groupBySnd (p :: l) = [[p]] := by
  unfold groupBySnd; rw [h]

theorem groupBySnd_cons_head {α β : Type} [DecidableEq β] (p q : α × β)
    (l t : List (α × β)) (gs : List (List (α × β)))
    (h : groupBySnd l = (q :: t) :: gs) :
    groupBySnd (p :: l) =
      if p.2 = q.2 then (p :: q :: t) :: gs else [p] :: (q :: t) :: gs := by
  unfold groupBySnd; rw [h]

theorem specGroups_cons_nil {α : Type} (p : Bool × α) (l : List (Bool × α))
    (h : specGroups l = []) : specGroups (p :: l) = [[p]] := by
  unfold specGroups; rw [h]

theorem specGroups_cons_head {α : Type} (p q : Bool × α) (l t : List (Bool × α))
    (gs : List (List (Bool × α))) (h : specGroups l = (q :: t) :: gs) :
    specGroups (p :: l) =
      if q.1 = true then [p] :: (q :: t) :: gs else (p :: q :: t) :: gs := by
  unfold specGroups; rw [h]

theorem groupBySnd_shape {α β : Type} [DecidableEq β] (p : α × β) (l : List (α × β)) :
    ∃ t gs, groupBySnd (p :: l) = (p :: t) :: gs := by
  rcases hgl : groupBySnd l with _ | ⟨g, gs⟩
  · exact ⟨[], [], groupBySnd_cons_nil p l hgl⟩
  · rcases g with _ | ⟨q, t⟩
    · refine ⟨[], gs, ?_⟩
      unfold groupBySnd; rw [hgl]
    · by_cases hc : p.2 = q.2
      · exact ⟨q :: t, gs, by rw [groupBySnd_cons_head p q l t gs hgl, if_pos hc]⟩
      · exact ⟨[], (q :: t) :: gs,
          by rw [groupBySnd_cons_head p q l t gs hgl, if_neg hc]⟩

theorem specGroups_shape {α : Type} (p : Bool × α) (l : List (Bool × α)) :
    ∃ t gs, specGroups (p :: l) = (p :: t) :: gs := by
  rcases hgl : specGroups l with _ | ⟨g, gs⟩
  · exact ⟨[], [], specGroups_cons_nil p l hgl⟩
  · rcases g with _ | ⟨q, t⟩
    · refine ⟨[], gs, ?_⟩
      unfold specGroups; rw [hgl]
    · by_cases hc : q.1 = true
      · exact ⟨[], (q :: t) :: gs,
          by rw [specGroups_cons_head p q l t gs hgl, if_pos hc]⟩
      · exact ⟨q :: t, gs, by rw [specGroups_cons_head p q l t gs hgl, if_neg hc]⟩

/-- The simplex-id grouping of the decoded words coincides, payload-wise, with
the direct split at start-flagged words: adjacent words share a cumulative
start count exactly when the later word's start flag is clear. -/
theorem group_cumsum_eq_spec {α : Type} (ds : List (Bool × α)) (c : ℕ) :
    (groupBySnd ((ds.map Prod.snd).zip (cumsumFrom c (ds.map Prod.fst)))).map
        (List.map Prod.fst) =
      (specGroups ds).map (List.map Prod.snd) := by
  induction ds generalizing c with
  | nil => rfl
  | cons d rest ih =>
    rcases rest with _ | ⟨r, rest'⟩
    · rfl
    · have hzip : ((d :: r :: rest').map Prod.snd).zip
          (cumsumFrom c ((d :: r :: rest').map Prod.fst)) =
            (d.2, c + (if d.1 then 1 else 0)) ::
              (((r :: rest').map Prod.snd).zip
                (cumsumFrom (c + (if d.1 then 1 else 0))
                  ((r :: rest').map Prod.fst))) := rfl
      have hzip2 : ((r :: rest').map Prod.snd).zip
          (cumsumFrom (c + (if d.1 then 1 else 0)) ((r :: rest').map Prod.fst)) =
            (r.2, c + (if d.1 then 1 else 0) + (if r.1 then 1 else 0)) ::
              ((rest'.map Prod.snd).zip
                (cumsumFrom (c + (if d.1 then 1 else 0) + (if r.1 then 1 else 0))
                  (rest'.map Prod.fst))) := rfl
      obtain ⟨t, gs, ht⟩ := groupBySnd_shape
        (r.2, c + (if d.1 then 1 else 0) + (if r.1 then 1 else 0))
        ((rest'.map Prod.snd).zip
          (cumsumFrom (c + (if d.1 then 1 else 0) + (if r.1 then 1 else 0))
            (rest'.map Prod.fst)))
      obtain ⟨u, hs, hu⟩ := specGroups_shape r rest'
      have ihr := ih (c + (if d.1 then 1 else 0))
      rw [hzip2, ht, hu] at ihr
      simp only [List.map_cons] at ihr
      have hpair := List.cons.inj ihr
      rw [hzip, groupBySnd_cons_head (d.2, c + (if d.1 then 1 else 0))
        (r.2, c + (if d.1 then 1 else 0) + (if r.1 then 1 else 0)) _ t gs
        (by rw [hzip2]; exact ht),
        specGroups_cons_head d r (r :: rest') u hs hu]
      by_cases hr : r.1 = true
      · have hne : ¬ ((d.2, c + (if d.1 = true then 1 else 0)).2 =
            (r.2, (c + (if d.1 = true then 1 else 0)) +
              (if r.1 = true then 1 else 0)).2) := by
          simp [hr]
        rw [if_neg hne]
        have hsp : (if r.1 = true then [d] :: (r :: u) :: hs
            else (d :: r :: u) :: hs) = [d] :: (r :: u) :: hs := if_pos hr
        rw [hsp]
        simp only [List.map_cons]
        rw [hpair.1, hpair.2]
        simp only [List.map_nil]
      · have heq : ((d.2, c + (if d.1 = true then 1 else 0)).2 =
            (r.2, (c + (if d.1 = true then 1 else 0)) +
              (if r.1 = true then 1 else 0)).2) := by
          simp [hr]
        rw [if_pos heq]
        have hsp : (if r.1 = true then [d] :: (r :: u) :: hs
            else (d :: r :: u) :: hs) = (d :: r :: u) :: hs := if_neg hr
        rw [hsp]
        simp only [List.map_cons]
        rw [(List.cons.inj hpair.1).2, hpair.2]

/--
C5 (amended): `_binary2simplex` begins a new simplex exactly at the words
whose bit 63 is *clear* (the source computes `start = not(bit63)`), and
returns for each simplex the concatenation, in word order, of the vertex
slots (bits 0–20, 21–41, 42–62) of its consecutive words, omitting every slot
equal to the sentinel `2^21 - 1`; leading words with bit 63 set form an
initial group of their own.
-/
theorem map_flatten_map {α β : Type} (f : α → List β) (G : List (List α)) :
    G.map (fun g => (g.map f).flatten) = (G.map (List.map f)).map List.flatten := by
  rw [List.map_map]
  rfl

theorem binary2simplex_eq_spec (ws : List ℕ) :
    binary2simplex ws = binary2simplex_spec ws := by
  unfold binary2simplex binary2simplex_spec
  rw [map_flatten_map Prod.fst, map_flatten_map Prod.snd,
    group_cumsum_eq_spec (ws.map decode_word) 0]

/--
C5 counterexample: `w0val` has bit 63 clear and `w1val` has bit 63 set; the
source decoder starts a simplex at `w0val` and treats `w1val` as a
continuation, yielding the single simplex `[3, 5]` — whereas the claimed
convention (start when bit 63 is set) splits them into `[3]` and `[5]`.
-/
theorem binary2simplex_cex :
    binary2simplex [w0val, w1val] = [[3, 5]] ∧
    binary2simplex_claimed [w0val, w1val] = [[3], [5]] ∧
    ¬ ([[3, 5]] : List (List ℕ)) = [[3], [5]] :=
  ⟨by decide, by decide, by decide⟩

/-! ## C2: `chunk_approx_and_dims` -/

/-! ### `intRange` and `EInt` basics -/

theorem intRange_length (lo : ℤ) (n : ℕ) : (intRange lo n).length = n := by
  induction n generalizing lo with
  | zero => rfl
  | succ m ih => simp [intRange, ih]

theorem intRange_ne_nil (lo : ℤ) (n : ℕ) (h : 0 < n) : intRange lo n ≠ [] := by
  cases n with
  | zero => exact absurd h (by omega)
  | succ m => simp [intRange]

theorem mem_intRange (d lo : ℤ) (n : ℕ) : d ∈ intRange lo n ↔ lo ≤ d ∧ d < lo + n := by
  induction n generalizing lo with
  | zero =>
    simp only [intRange, List.not_mem_nil, false_iff]
    omega
  | succ m ih =>
    rw [intRange, List.mem_cons, ih (lo + 1)]
    constructor <;> intro h <;> [skip; skip] <;> omega

theorem intRange_congr (lo lo' : ℤ) (n : ℕ) (h : lo = lo') :
    intRange lo n = intRange lo' n := by rw [h]

theorem intRange_concat (lo : ℤ) (n : ℕ) :
    intRange lo (n + 1) = intRange lo n ++ [lo + n] := by
  induction n generalizing lo with
  | zero => simp [intRange]
  | succ m ih =>
    rw [show intRange lo (m + 1 + 1) = lo :: intRange (lo + 1) (m + 1) from rfl,
      ih (lo + 1),
      show intRange lo (m + 1) = lo :: intRange (lo + 1) m from rfl,
      List.cons_append]
    congr 2
    push_cast
    ring

theorem intRange_headD (lo : ℤ) (n : ℕ) (h : 0 < n) (d : ℤ) :
    (intRange lo n).headD d = lo := by
  cases n with
  | zero => exact absurd h (by omega)
  | succ m => rfl

theorem intRange_getLastD (n : ℕ) : ∀ (lo d : ℤ), 0 < n →
    (intRange lo n).getLastD d = lo + n - 1 := by
  induction n with
  | zero => intro lo d h; exact absurd h (by omega)
  | succ m ih =>
    intro lo d _
    cases Nat.eq_zero_or_pos m with
    | inl h0 =>
      subst h0
      show List.getLastD [lo] d = lo + (1 : ℕ) - 1
      simp
    | inr hm =>
      rw [show intRange lo (m + 1) = lo :: intRange (lo + 1) m from rfl,
        List.getLastD_cons, ih (lo + 1) lo hm]
      push_cast
      ring

theorem intRange_dropLast (lo : ℤ) (n : ℕ) :
    (intRange lo (n + 1)).dropLast = intRange lo n := by
  rw [intRange_concat]
  exact List.dropLast_concat

theorem append_eq_intRange (g : List ℤ) : ∀ (r : List ℤ) (lo : ℤ) (n : ℕ),
    g ++ r = intRange lo n →
    g = intRange lo g.length ∧ r = intRange (lo + g.length) (n - g.length) := by
  induction g with
  | nil =>
    intro r lo n h
    refine ⟨rfl, ?_⟩
    rw [List.nil_append] at h
    rw [h]
    exact intRange_congr _ _ _ (by simp)
  | cons a g' ih =>
    intro r lo n h
    cases n with
    | zero => simp [intRange] at h
    | succ m =>
      rw [show intRange lo (m + 1) = lo :: intRange (lo + 1) m from rfl] at h
      rw [List.cons_append] at h
      obtain ⟨ha, htail⟩ := List.cons.inj h
      obtain ⟨hg', hr⟩ := ih r (lo + 1) m htail
      subst ha
      constructor
      · rw [List.length_cons,
          show intRange a (g'.length + 1) = a :: intRange (a + 1) g'.length from rfl,
          ← hg']
      · rw [hr, List.length_cons,
          show a + ((g'.length + 1 : ℕ) : ℤ) = a + 1 + (g'.length : ℤ) by push_cast; ring,
          show m + 1 - (g'.length + 1) = m - g'.length by omega]
  
theorem EInt.leb_int_int (a b : ℤ) : EInt.leb (EInt.int a) (EInt.int b) = true ↔ a ≤ b := by
  simp [EInt.leb]

theorem EInt.leb_inf (a : EInt) : EInt.leb a EInt.inf = true := by
  cases a <;> rfl

theorem EInt.leb_trans (a b c : EInt) (h1 : EInt.leb a b = true)
    (h2 : EInt.leb b c = true) : EInt.leb a c = true := by
  cases a <;> cases b <;> cases c <;> simp_all [EInt.leb] <;> omega

theorem EInt.ltb_int_int (a b : ℤ) : EInt.ltb (EInt.int a) (EInt.int b) = true ↔ a < b := by
  simp [EInt.ltb, EInt.leb]

theorem EInt.ltb_int_inf (a : ℤ) : EInt.ltb (EInt.int a) EInt.inf = true := rfl

/-! ### `groupBySnd` structure -/

theorem groupBySnd_not_nil_mem {α β : Type} [DecidableEq β] (l : List (α × β)) :
    ¬ ([] ∈ groupBySnd l) := by
  induction l with
  | nil => simp [groupBySnd]
  | cons p rest ih =>
    rcases hgr : groupBySnd rest with _ | ⟨g, gs⟩
    · rw [groupBySnd_cons_nil p rest hgr]
      simp
    · rcases g with _ | ⟨q, t⟩
      · refine absurd ?_ ih
        rw [hgr]
        exact List.mem_cons_self _ _
      · rw [groupBySnd_cons_head p q rest t gs hgr]
        by_cases hc : p.2 = q.2
        · rw [if_pos hc]
          intro hmem
          rcases List.mem_cons.mp hmem with h | h
          · simp at h
          · refine ih ?_
            rw [hgr]
            exact List.mem_cons_of_mem _ h
        · rw [if_neg hc]
          intro hmem
          rcases List.mem_cons.mp hmem with h | h
          · simp at h
          · rcases List.mem_cons.mp h with h2 | h2
            · simp at h2
            · refine ih ?_
              rw [hgr]
              exact List.mem_cons_of_mem _ h2

theorem groupBySnd_flatten {α β : Type} [DecidableEq β] (l : List (α × β)) :
    (groupBySnd l).flatten = l := by
  induction l with
  | nil => rfl
  | cons p rest ih =>
    rcases hgr : groupBySnd rest with _ | ⟨g, gs⟩
    · rw [groupBySnd_cons_nil p rest hgr]
      rw [hgr] at ih
      simp only [List.flatten_nil] at ih
      simp [← ih]
    · rcases g with _ | ⟨q, t⟩
      · refine absurd ?_ (groupBySnd_not_nil_mem rest)
        rw [hgr]
        exact List.mem_cons_self _ _
      · rw [groupBySnd_cons_head p q rest t gs hgr]
        rw [hgr] at ih
        by_cases hc : p.2 = q.2
        · rw [if_pos hc]
          simp only [List.flatten_cons, List.cons_append] at ih ⊢
          rw [ih]
        · rw [if_neg hc]
          simp only [List.flatten_cons, List.cons_append, List.nil_append] at ih ⊢
          rw [ih]

theorem groupBySnd_snd_const {α β : Type} [DecidableEq β] (l : List (α × β)) :
    ∀ g ∈ groupBySnd l, ∀ p ∈ g, ∀ q ∈ g, p.2 = q.2 := by
  induction l with
  | nil => simp [groupBySnd]
  | cons p0 rest ih =>
    rcases hgr : groupBySnd rest with _ | ⟨g0, gs⟩
    · rw [groupBySnd_cons_nil p0 rest hgr]
      intro g hg p hp q hq
      simp only [List.mem_singleton] at hg
      subst hg
      simp only [List.mem_singleton] at hp hq
      rw [hp, hq]
    · rcases g0 with _ | ⟨q0, t⟩
      · refine absurd ?_ (groupBySnd_not_nil_mem rest)
        rw [hgr]
        exact List.mem_cons_self _ _
      · rw [groupBySnd_cons_head p0 q0 rest t gs hgr]
        have hhead := ih (q0 :: t) (by rw [hgr]; exact List.mem_cons_self _ _)
        have hrest : ∀ g ∈ gs, ∀ p ∈ g, ∀ q ∈ g, p.2 = q.2 :=
          fun g hg => ih g (by rw [hgr]; exact List.mem_cons_of_mem _ hg)
        by_cases hc : p0.2 = q0.2
        · rw [if_pos hc]
          intro g hg p hp q hq
          rcases List.mem_cons.mp hg with rfl | hg
          · have key : ∀ x ∈ p0 :: q0 :: t, x.2 = q0.2 := by
              intro x hx
              rcases List.mem_cons.mp hx with rfl | hx
              · exact hc
              · exact hhead x hx q0 (List.mem_cons_self _ _)
            rw [key p hp, key q hq]
          · exact hrest g hg p hp q hq
        · rw [if_neg hc]
          intro g hg p hp q hq
          rcases List.mem_cons.mp hg with rfl | hg
          · simp only [List.mem_singleton] at hp hq
            rw [hp, hq]
          · rcases List.mem_cons.mp hg with rfl | hg
            · exact hhead p hp q hq
            · exact hrest g hg p hp q hq

theorem groupBySnd_ne_nil {α β : Type} [DecidableEq β] (p : α × β) (l : List (α × β)) :
    groupBySnd (p :: l) ≠ [] := by
  obtain ⟨t, gs, h⟩ := groupBySnd_shape p l
  rw [h]
  simp

theorem groupBySnd_last_two {α β : Type} [DecidableEq β] :
    ∀ (l0 : List (α × β)) (p q : α × β), p.2 = q.2 →
    ∃ gs g0, groupBySnd (l0 ++ [p, q]) = gs ++ [g0 ++ [p, q]] := by
  intro l0
  induction l0 with
  | nil =>
    intro p q hpq
    refine ⟨[], [], ?_⟩
    have h1 : groupBySnd ([q] : List (α × β)) = [[q]] := groupBySnd_cons_nil q [] rfl
    rw [List.nil_append,
      show ([p, q] : List (α × β)) = p :: [q] from rfl,
      groupBySnd_cons_head p q [q] [] [] h1, if_pos hpq]
    rfl
  | cons a l0' ih =>
    intro p q hpq
    obtain ⟨gs, g0, hIH⟩ := ih p q hpq
    rcases gs with _ | ⟨G, gs'⟩
    · rw [List.nil_append] at hIH
      rcases g0 with _ | ⟨b, g0'⟩
      · rw [List.nil_append] at hIH
        by_cases hc : a.2 = p.2
        · refine ⟨[], [a], ?_⟩
          rw [show (a :: l0') ++ [p, q] = a :: (l0' ++ [p, q]) from rfl,
            groupBySnd_cons_head a p (l0' ++ [p, q]) [q] [] hIH, if_pos hc]
          rfl
        · refine ⟨[[a]], [], ?_⟩
          rw [show (a :: l0') ++ [p, q] = a :: (l0' ++ [p, q]) from rfl,
            groupBySnd_cons_head a p (l0' ++ [p, q]) [q] [] hIH, if_neg hc]
          rfl
      · rw [show (b :: g0') ++ [p, q] = b :: (g0' ++ [p, q]) from rfl] at hIH
        by_cases hc : a.2 = b.2
        · refine ⟨[], a :: b :: g0', ?_⟩
          rw [show (a :: l0') ++ [p, q] = a :: (l0' ++ [p, q]) from rfl,
            groupBySnd_cons_head a b (l0' ++ [p, q]) (g0' ++ [p, q]) [] hIH,
            if_pos hc]
          rfl
        · refine ⟨[[a]], b :: g0', ?_⟩
          rw [show (a :: l0') ++ [p, q] = a :: (l0' ++ [p, q]) from rfl,
            groupBySnd_cons_head a b (l0' ++ [p, q]) (g0' ++ [p, q]) [] hIH,
            if_neg hc]
          rfl
    · have hGne : G ≠ [] := by
        intro hG
        subst hG
        refine groupBySnd_not_nil_mem (l0' ++ [p, q]) ?_
        rw [hIH]
        exact List.mem_cons_self _ _
      rcases G with _ | ⟨c, Gt⟩
      · exact absurd rfl hGne
      · rw [show ((c :: Gt) :: gs') ++ [g0 ++ [p, q]] =
            (c :: Gt) :: (gs' ++ [g0 ++ [p, q]]) from rfl] at hIH
        by_cases hc : a.2 = c.2
        · refine ⟨(a :: c :: Gt) :: gs', g0, ?_⟩
          rw [show (a :: l0') ++ [p, q] = a :: (l0' ++ [p, q]) from rfl,
            groupBySnd_cons_head a c (l0' ++ [p, q]) Gt (gs' ++ [g0 ++ [p, q]]) hIH,
            if_pos hc]
          rfl
        · refine ⟨[a] :: (c :: Gt) :: gs', g0, ?_⟩
          rw [show (a :: l0') ++ [p, q] = a :: (l0' ++ [p, q]) from rfl,
            groupBySnd_cons_head a c (l0' ++ [p, q]) Gt (gs' ++ [g0 ++ [p, q]]) hIH,
            if_neg hc]
          rfl

/-! ### run decomposition -/

theorem getLastD_irrel {α : Type} (l : List α) (hl : l ≠ []) (d d' : α) :
    l.getLastD d = l.getLastD d' := by
  cases l with
  | nil => exact absurd rfl hl
  | cons a t => rw [List.getLastD_cons, List.getLastD_cons]

theorem flatten_ne_nil {α : Type} (gs : List (List α)) (hne : gs ≠ [])
    (hmem : ∀ g ∈ gs, g ≠ []) : gs.flatten ≠ [] := by
  cases gs with
  | nil => exact absurd rfl hne
  | cons g gs' =>
    have hg := hmem g (List.mem_cons_self _ _)
    cases g with
    | nil => exact absurd rfl hg
    | cons a t => simp

theorem runs_of_flatten : ∀ (dgs : List (List ℤ)) (lo : ℤ) (n : ℕ), 0 < n →
    (∀ g ∈ dgs, g ≠ []) → dgs.flatten = intRange lo n → RunList lo n dgs := by
  intro dgs
  induction dgs with
  | nil =>
    intro lo n hn _ hj
    have hlen := congrArg List.length hj
    rw [intRange_length] at hlen
    simp at hlen
    omega
  | cons g dgs' ih =>
    intro lo n hn hmem hj
    have hgne : g ≠ [] := hmem g (List.mem_cons_self _ _)
    rcases dgs' with _ | ⟨g2, dgs''⟩
    · simp only [List.flatten_cons, List.flatten_nil, List.append_nil] at hj
      rw [hj]
      exact RunList.single lo n hn
    · simp only [List.flatten_cons] at hj
      obtain ⟨hg, hrest⟩ := append_eq_intRange g _ lo n hj
      have hr0 : 0 < g.length := List.length_pos.mpr hgne
      have hfne : ((g2 :: dgs'') : List (List ℤ)).flatten ≠ [] :=
        flatten_ne_nil _ (by simp) (fun x hx => hmem x (List.mem_cons_of_mem _ hx))
      have hlen : 0 < n - g.length := by
        have hl2 : (g2 ++ dgs''.flatten).length = n - g.length := by
          rw [hrest, intRange_length]
        have hl3 : 0 < (g2 ++ dgs''.flatten).length := by
          rw [show g2 ++ dgs''.flatten = ((g2 :: dgs'') : List (List ℤ)).flatten from rfl]
          exact List.length_pos.mpr hfne
        omega
      have hrl := ih (lo + g.length) (n - g.length) hlen
        (fun x hx => hmem x (List.mem_cons_of_mem _ hx)) hrest
      have hlt : g.length < n := by omega
      rw [hg]
      exact RunList.cons lo g.length n hr0 hlt _ hrl

theorem RunList_ne_nil (lo : ℤ) (n : ℕ) (dgs : List (List ℤ)) (h : RunList lo n dgs) :
    dgs ≠ [] := by
  cases h <;> simp

theorem RunList_lastLast (lo : ℤ) (n : ℕ) (dgs : List (List ℤ))
    (h : RunList lo n dgs) : (dgs.getLastD []).getLastD 0 = lo + n - 1 := by
  induction h with
  | single lo n hn =>
    rw [show (([intRange lo n] : List (List ℤ))).getLastD [] = intRange lo n from rfl]
    exact intRange_getLastD n lo 0 hn
  | cons lo r n h hr rest hrest ih =>
    rw [List.getLastD_cons,
      getLastD_irrel rest (RunList_ne_nil _ _ _ hrest) (intRange lo r) [], ih]
    omega

theorem RunList_getD (lo : ℤ) (n : ℕ) (dgs : List (List ℤ)) (h : RunList lo n dgs) :
    ∀ j, j < dgs.length → ∃ s : ℤ, ∃ r : ℕ, dgs.getD j [] = intRange s r ∧ 0 < r ∧
      lo ≤ s ∧ s + (r : ℤ) ≤ lo + n := by
  induction h with
  | single lo n hn =>
    intro j hj
    simp only [List.length_cons, List.length_nil] at hj
    have hj0 : j = 0 := by omega
    subst hj0
    exact ⟨lo, n, rfl, hn, le_refl _, le_refl _⟩
  | cons lo r n h hr rest hrest ih =>
    intro j hj
    cases j with
    | zero => exact ⟨lo, r, rfl, h, le_refl _, by omega⟩
    | succ k =>
      obtain ⟨s, r', hget, hr', hs, hbound⟩ := ih k (by simpa using hj)
      exact ⟨s, r', hget, hr', by omega, by omega⟩

theorem RunList_snoc (lo : ℤ) (n : ℕ) (dgs : List (List ℤ)) (h : RunList lo n dgs) :
    ∃ s : ℤ, ∃ r : ℕ, 0 < r ∧ r ≤ n ∧ s = lo + (n : ℤ) - r ∧
      ((dgs = [intRange s r] ∧ r = n) ∨
       (∃ dgs0, dgs = dgs0 ++ [intRange s r] ∧ RunList lo (n - r) dgs0 ∧ r < n)) := by
  induction h with
  | single lo n hn =>
    exact ⟨lo, n, hn, le_refl n, by omega, Or.inl ⟨rfl, rfl⟩⟩
  | cons lo r0 n h0 hr0 rest hrest ih =>
    obtain ⟨s, r, hr, hrn, hs, hcase⟩ := ih
    have hsval : s = lo + (n : ℤ) - r := by omega
    rcases hcase with ⟨hrest_eq, hreq⟩ | ⟨dgs0, hsplit, hrl0, hrlt⟩
    · refine ⟨s, r, hr, by omega, hsval, Or.inr ⟨[intRange lo r0], ?_, ?_, by omega⟩⟩
      · rw [hrest_eq]
        rfl
      · have hn : n - r = r0 := by omega
        rw [hn]
        exact RunList.single lo r0 h0
    · refine ⟨s, r, hr, by omega, hsval,
        Or.inr ⟨intRange lo r0 :: dgs0, ?_, ?_, by omega⟩⟩
      · rw [hsplit]
        rfl
      · have h2 : (n - r) - r0 = (n - r0) - r := by omega
        refine RunList.cons lo r0 (n - r) h0 (by omega) dgs0 ?_
        rw [h2]
        exact hrl0

theorem headD_append_left {α : Type} (l l2 : List α) (hl : l ≠ []) (d : α) :
    (l ++ l2).headD d = l.headD d := by
  cases l with
  | nil => exact absurd rfl hl
  | cons a t => rfl

theorem mapInt_headD (l : List ℤ) (hl : l ≠ []) :
    (l.map EInt.int).headD EInt.inf = EInt.int (l.headD 0) := by
  cases l with
  | nil => exact absurd rfl hl
  | cons a t => rfl

theorem mapInt_getLastD (l : List ℤ) (hl : l ≠ []) :
    (l.map EInt.int).getLastD EInt.inf = EInt.int (l.getLastD 0) := by
  induction l with
  | nil => exact absurd rfl hl
  | cons a t ih =>
    cases t with
    | nil => rfl
    | cons b t' =>
      rw [List.map_cons, List.getLastD_cons, List.getLastD_cons,
        getLastD_irrel _ (by simp : ((b :: t').map EInt.int) ≠ []) (EInt.int a) EInt.inf,
        getLastD_irrel _ (by simp : (b :: t') ≠ []) a 0]
      exact ih (by simp)

theorem dropLast_map {α β : Type} (f : α → β) (l : List α) :
    (l.map f).dropLast = l.dropLast.map f := by
  induction l with
  | nil => rfl
  | cons a t ih =>
    cases t with
    | nil => rfl
    | cons b t' =>
      show f a :: (List.map f (b :: t')).dropLast = f a :: ((b :: t').dropLast.map f)
      rw [ih]

/-! ### interval chains -/

theorem IvlChain_ne_nil (lo : ℤ) (E : EInt) (cs : List (List EInt))
    (h : IvlChain lo E cs) : cs ≠ [] := by
  cases h <;> simp

theorem IvlChain_starts_ge (lo : ℤ) (E : EInt) (cs : List (List EInt))
    (h : IvlChain lo E cs) : ∀ j, j < cs.length →
    EInt.leb (EInt.int lo) (chunkStart (cs.getD j [])) = true := by
  induction h with
  | single lo E c hs he hle =>
    intro j hj
    simp only [List.length_cons, List.length_nil] at hj
    have hj0 : j = 0 := by omega
    subst hj0
    rw [show (([c] : List (List EInt))).getD 0 [] = c from rfl, hs]
    exact (EInt.leb_int_int lo lo).mpr (le_refl lo)
  | cons lo e E c cs hs he hle hrest ih =>
    intro j hj
    cases j with
    | zero =>
      rw [show ((c :: cs).getD 0 []) = c from rfl, hs]
      exact (EInt.leb_int_int _ _).mpr (le_refl lo)
    | succ k =>
      have hk := ih k (by simpa using hj)
      exact EInt.leb_trans _ _ _ ((EInt.leb_int_int _ _).mpr (by omega)) hk

theorem IvlChain_concat : ∀ (cs : List (List EInt)) (lo e : ℤ) (E : EInt)
    (cs2 : List (List EInt)), IvlChain lo (EInt.int e) cs → IvlChain (e + 1) E cs2 →
    IvlChain lo E (cs ++ cs2) := by
  intro cs
  induction cs with
  | nil =>
    intro lo e E cs2 h1 _
    exact absurd rfl (IvlChain_ne_nil _ _ _ h1)
  | cons c cs' ih =>
    intro lo e E cs2 h1 h2
    rcases cs' with _ | ⟨c1, cs''⟩
    · cases h1 with
      | single _ _ _ hs he hle =>
        rw [List.cons_append, List.nil_append]
        exact IvlChain.cons lo e E c cs2 hs he ((EInt.leb_int_int _ _).mp hle) h2
      | cons _ e' _ _ _ hs he hle hrest =>
        exact absurd rfl (IvlChain_ne_nil _ _ _ hrest)
    · cases h1 with
      | cons _ e' _ _ _ hs he hle hrest =>
        rw [List.cons_append]
        exact IvlChain.cons lo e' E c _ hs he hle (ih (e' + 1) e E cs2 hrest h2)

theorem IvlChain_cover_unique : ∀ (cs : List (List EInt)) (lo : ℤ) (E : EInt),
    IvlChain lo E cs → ∀ d : ℤ, lo ≤ d → EInt.leb (EInt.int d) E = true →
    ∃! i : ℕ, i < cs.length ∧ chunkCovers (cs.getD i []) d := by
  intro cs
  induction cs with
  | nil =>
    intro lo E h
    exact absurd rfl (IvlChain_ne_nil _ _ _ h)
  | cons c cs' ih =>
    intro lo E h d hlo hdE
    rcases cs' with _ | ⟨c1, cs''⟩
    · cases h with
      | single _ _ _ hs he hle =>
        refine ⟨0, ⟨by simp, ?_, ?_⟩, ?_⟩
        · show EInt.leb (chunkStart c) (EInt.int d) = true
          rw [hs]
          exact (EInt.leb_int_int _ _).mpr hlo
        · show EInt.leb (EInt.int d) (chunkEnd c) = true
          rw [he]
          exact hdE
        · rintro y ⟨hy, _⟩
          simp only [List.length_cons, List.length_nil] at hy
          omega
      | cons _ e' _ _ _ hs he hle hrest =>
        exact absurd rfl (IvlChain_ne_nil _ _ _ hrest)
    · cases h with
      | cons _ e _ _ _ hs he hle hrest =>
        by_cases hd : d ≤ e
        · refine ⟨0, ⟨by simp, ?_, ?_⟩, ?_⟩
          · show EInt.leb (chunkStart c) (EInt.int d) = true
            rw [hs]
            exact (EInt.leb_int_int _ _).mpr hlo
          · show EInt.leb (EInt.int d) (chunkEnd c) = true
            rw [he]
            exact (EInt.leb_int_int _ _).mpr hd
          · rintro y ⟨hy, hcov1, hcov2⟩
            cases y with
            | zero => rfl
            | succ k =>
              exfalso
              have hstart := IvlChain_starts_ge (e + 1) E (c1 :: cs'') hrest k
                (by simpa using hy)
              have hled := EInt.leb_trans _ _ _ hstart hcov1
              rw [EInt.leb_int_int] at hled
              omega
        · push_neg at hd
          obtain ⟨i, ⟨hi, hci⟩, huniq⟩ := ih (e + 1) E hrest d (by omega) hdE
          refine ⟨i + 1, ⟨by simpa using hi, hci⟩, ?_⟩
          rintro y ⟨hy, hcov⟩
          cases y with
          | zero =>
            exfalso
            have h2 := hcov.2
            rw [show ((c :: c1 :: cs'') : List (List EInt)).getD 0 [] = c from rfl,
              he, EInt.leb_int_int] at h2
            omega
          | succ k =>
            have hk := huniq k ⟨by simpa using hy, hcov⟩
            omega

/-! ### chains for the three surgery outcomes -/

theorem interpEnd_ne (e : EInt) (hne : ¬ e = EInt.int (-1)) : interpEnd e = e :=
  if_neg hne

theorem RunList_pos (lo : ℤ) (n : ℕ) (dgs : List (List ℤ)) (h : RunList lo n dgs) :
    0 < n := by
  cases h <;> omega

theorem mapped_run_chunkStart (s : ℤ) (r : ℕ) (hr : 0 < r) :
    chunkStart ((intRange s r).map EInt.int) = EInt.int s := by
  unfold chunkStart
  rw [mapInt_headD _ (intRange_ne_nil s r hr), intRange_headD s r hr]

theorem mapped_run_chunkEnd (s : ℤ) (r : ℕ) (hr : 0 < r) (hpos : 0 ≤ s) :
    chunkEnd ((intRange s r).map EInt.int) = EInt.int (s + r - 1) := by
  unfold chunkEnd
  rw [mapInt_getLastD _ (intRange_ne_nil s r hr), intRange_getLastD r s 0 hr]
  refine interpEnd_ne _ ?_
  intro hcon
  have hval := EInt.int.inj hcon
  omega

theorem chainA : ∀ (lo : ℤ) (n : ℕ) (dgs : List (List ℤ)), RunList lo n dgs →
    0 ≤ lo → IvlChain lo (EInt.int (lo + n - 1)) (dgs.map (List.map EInt.int)) := by
  intro lo n dgs h
  induction h with
  | single lo n hn =>
    intro hpos
    show IvlChain lo (EInt.int (lo + n - 1)) [(intRange lo n).map EInt.int]
    refine IvlChain.single lo _ _ (mapped_run_chunkStart lo n hn)
      (mapped_run_chunkEnd lo n hn hpos) ?_
    exact (EInt.leb_int_int _ _).mpr (by omega)
  | cons lo r n h hr rest hrest ih =>
    intro hpos
    rw [List.map_cons]
    refine IvlChain.cons lo (lo + r - 1) _ _ _ (mapped_run_chunkStart lo r h)
      (mapped_run_chunkEnd lo r h hpos) (by omega) ?_
    have hrec := ih (by omega : (0 : ℤ) ≤ lo + r)
    rw [show (lo + (r : ℤ)) + ((n - r : ℕ) : ℤ) - 1 = lo + (n : ℤ) - 1 from by omega]
      at hrec
    rw [show lo + (r : ℤ) - 1 + 1 = lo + (r : ℤ) from by ring]
    exact hrec

theorem chainB (lo : ℤ) (n : ℕ) (dgs : List (List ℤ)) (max_dim : EInt)
    (h : RunList lo n dgs) (hpos : 0 ≤ lo)
    (hlt : EInt.ltb (EInt.int (lo + n - 1)) max_dim = true) :
    IvlChain lo max_dim
      ((dgs.map (List.map EInt.int)) ++ [[EInt.int (lo + n), max_dim]]) := by
  have hn := RunList_pos lo n dgs h
  refine IvlChain_concat _ lo (lo + n - 1) max_dim _ (chainA lo n dgs h hpos) ?_
  rw [show lo + (n : ℤ) - 1 + 1 = lo + (n : ℤ) from by ring]
  have hmax_ne : ¬ max_dim = EInt.int (-1) := by
    cases max_dim with
    | inf => simp
    | int M =>
      rw [EInt.ltb_int_int] at hlt
      intro hcon
      have hval := EInt.int.inj hcon
      omega
  refine IvlChain.single (lo + n) max_dim _ rfl ?_ ?_
  · unfold chunkEnd
    rw [show ([EInt.int (lo + n), max_dim] : List EInt).getLastD EInt.inf =
        max_dim from by rw [List.getLastD_cons, List.getLastD_cons]; rfl]
    exact interpEnd_ne _ hmax_ne
  · cases max_dim with
    | inf => exact EInt.leb_inf _
    | int M =>
      rw [EInt.ltb_int_int] at hlt
      exact (EInt.leb_int_int _ _).mpr (by omega)

theorem setLast_append_single {α : Type} (l : List α) (b x : α) :
    setLast (l ++ [b]) x = l ++ [x] := by
  unfold setLast
  rw [List.dropLast_concat]

theorem mutated_chunk_eq (s : ℤ) (r : ℕ) (hr2 : 2 ≤ r) :
    setLast ((intRange s r).map EInt.int) (EInt.int (-1)) =
      (intRange s (r - 1)).map EInt.int ++ [EInt.int (-1)] := by
  unfold setLast
  rw [dropLast_map]
  obtain ⟨r', hr'⟩ : ∃ r', r = r' + 1 := ⟨r - 1, by omega⟩
  subst hr'
  rw [intRange_dropLast]
  simp

theorem mutated_single_chain (s : ℤ) (r : ℕ) (hr2 : 2 ≤ r) :
    IvlChain s EInt.inf [setLast ((intRange s r).map EInt.int) (EInt.int (-1))] := by
  rw [mutated_chunk_eq s r hr2]
  refine IvlChain.single s EInt.inf _ ?_ ?_ (EInt.leb_inf _)
  · unfold chunkStart
    rw [headD_append_left ((intRange s (r - 1)).map EInt.int) _
      (by simpa using intRange_ne_nil s (r - 1) (by omega)) EInt.inf,
      mapInt_headD _ (intRange_ne_nil s (r - 1) (by omega)),
      intRange_headD s (r - 1) (by omega)]
  · unfold chunkEnd
    rw [getLastD_append_single]
    simp [interpEnd]

theorem chainC (lo : ℤ) (n : ℕ) (dgs : List (List ℤ)) (h : RunList lo n dgs)
    (hpos : 0 ≤ lo) (hlen2 : 2 ≤ (dgs.getLastD []).length) :
    IvlChain lo EInt.inf
      (setLast (dgs.map (List.map EInt.int))
        (setLast ((dgs.map (List.map EInt.int)).getLastD []) (EInt.int (-1)))) := by
  obtain ⟨s, r, hr, hrn, hs, hcase⟩ := RunList_snoc lo n dgs h
  rcases hcase with ⟨hdgs, hreq⟩ | ⟨dgs0, hdgs, hrl0, hrlt⟩
  · subst hdgs
    have hr2 : 2 ≤ r := by
      rw [show (([intRange s r] : List (List ℤ))).getLastD [] = intRange s r from rfl,
        intRange_length] at hlen2
      exact hlen2
    have hslo : s = lo := by omega
    subst hslo
    rw [show ([intRange s r] : List (List ℤ)).map (List.map EInt.int) =
        [(intRange s r).map EInt.int] from rfl,
      show ([(intRange s r).map EInt.int] :
        List (List EInt)).getLastD [] = (intRange s r).map EInt.int from rfl,
      show setLast [(intRange s r).map EInt.int]
          (setLast ((intRange s r).map EInt.int) (EInt.int (-1))) =
        [setLast ((intRange s r).map EInt.int) (EInt.int (-1))] from rfl]
    exact mutated_single_chain s r hr2
  · subst hdgs
    have hr2 : 2 ≤ r := by
      rw [getLastD_append_single, intRange_length] at hlen2
      exact hlen2
    rw [List.map_append,
      show ([intRange s r] : List (List ℤ)).map (List.map EInt.int) =
        [(intRange s r).map EInt.int] from rfl,
      getLastD_append_single, setLast_append_single]
    have hc0 := chainA lo (n - r) dgs0 hrl0 hpos
    refine IvlChain_concat _ lo (lo + ((n - r : ℕ) : ℤ) - 1) EInt.inf _ hc0 ?_
    rw [show lo + ((n - r : ℕ) : ℤ) - 1 + 1 = s from by omega]
    exact mutated_single_chain s r hr2

/-! ### value layer: schedule values along the runs -/

theorem flatten_map_map {α β : Type} (f : α → β) (gs : List (List α)) :
    (gs.map (List.map f)).flatten = gs.flatten.map f := by
  induction gs with
  | nil => rfl
  | cons g gs' ih =>
    simp only [List.map_cons, List.flatten_cons, List.map_append, ih]

theorem getLastD_map {α β : Type} (f : α → β) : ∀ (l : List α), l ≠ [] →
    ∀ (d : β) (e : α), (l.map f).getLastD d = f (l.getLastD e) := by
  intro l
  induction l with
  | nil => intro h; exact absurd rfl h
  | cons a t ih =>
    intro _ d e
    cases t with
    | nil => rfl
    | cons b t' =>
      rw [List.map_cons, List.getLastD_cons, List.getLastD_cons]
      exact ih (by simp) (f a) a

theorem getD_default_irrel {α : Type} : ∀ (l : List α) (i : ℕ), i < l.length →
    ∀ (d e : α), l.getD i d = l.getD i e := by
  intro l
  induction l with
  | nil => intro i hi; cases hi
  | cons a t ih =>
    intro i hi d e
    cases i with
    | zero => rfl
    | succ k => exact ih k (Nat.lt_of_succ_lt_succ hi) d e

theorem getLastD_eq_getD {α : Type} : ∀ (l : List α), l ≠ [] → ∀ (d : α),
    l.getLastD d = l.getD (l.length - 1) d := by
  intro l
  induction l with
  | nil => intro h; exact absurd rfl h
  | cons a t ih =>
    intro _ d
    cases t with
    | nil => rfl
    | cons b t' =>
      rw [List.getLastD_cons, ih (by simp) a,
        show (a :: b :: t').length - 1 = ((b :: t').length - 1) + 1 from by simp,
        List.getD_cons_succ]
      exact getD_default_irrel (b :: t') ((b :: t').length - 1) (by simp) a d

theorem range_map_getD {β : Type} (g : ℕ → β) (N j : ℕ) (hj : j < N) (d : β) :
    ((List.range N).map g).getD j d = g j := by
  rw [getD_map_lt g (List.range N) j (by rw [List.length_range]; exact hj) 0 d]
  congr 1
  rw [List.getD_eq_getElem _ _ (by simpa using hj)]
  simp

theorem EInt.leb_refl (a : EInt) : EInt.leb a a = true := by
  cases a with
  | int z => exact (EInt.leb_int_int z z).mpr (le_refl z)
  | inf => rfl

theorem sizeLtRange_iff_ltb (len : ℕ) (min_dim : ℤ) (max_dim : EInt) :
    sizeLtRange len min_dim max_dim =
      EInt.ltb (EInt.int (min_dim + len - 1)) max_dim := by
  cases max_dim with
  | inf => rfl
  | int M =>
    show decide ((len : ℤ) < M - min_dim + 1) =
      !(decide (M ≤ min_dim + (len : ℤ) - 1))
    rw [← decide_not]
    exact decide_eq_decide.mpr (by constructor <;> intro <;> omega)

theorem zip_intRange_mem : ∀ (approx : List ℤ) (lo : ℤ) (p : ℤ × ℤ),
    p ∈ (intRange lo approx.length).zip approx →
    p.2 = approx.getD (p.1 - lo).toNat 0 ∧ lo ≤ p.1 ∧ p.1 < lo + approx.length := by
  intro approx
  induction approx with
  | nil =>
    intro lo p hp
    simp [intRange] at hp
  | cons a rest ih =>
    intro lo p hp
    rw [show intRange lo (a :: rest).length = lo :: intRange (lo + 1) rest.length
        from rfl,
      List.zip_cons_cons, List.mem_cons] at hp
    rcases hp with rfl | hp
    · refine ⟨?_, le_refl _, by rw [List.length_cons]; push_cast; omega⟩
      show a = (a :: rest).getD ((lo : ℤ) - lo).toNat 0
      rw [show ((lo : ℤ) - lo).toNat = 0 from by omega]
      rfl
    · obtain ⟨hval, hlo, hhi⟩ := ih (lo + 1) p hp
      refine ⟨?_, by omega, by rw [List.length_cons]; push_cast at hhi ⊢; omega⟩
      rw [hval, show (p.1 - lo).toNat = (p.1 - (lo + 1)).toNat + 1 from by omega]
      rfl

theorem group_chunk_facts (min_dim : ℤ) (approx : List ℤ) (g : List (ℤ × ℤ))
    (hg : g ∈ theGroups min_dim approx) (s : ℤ)
    (hs : s ∈ g.map Prod.fst) :
    npIndex approx (s - min_dim) = some (approx.getD (s - min_dim).toNat 0) ∧
    ∀ d ∈ g.map Prod.fst, approx.getD (d - min_dim).toNat 0 =
      approx.getD (s - min_dim).toNat 0 := by
  obtain ⟨p, hp, hps⟩ := List.mem_map.mp hs
  have hpz : p ∈ (intRange min_dim approx.length).zip approx := by
    rw [← groupBySnd_flatten ((intRange min_dim approx.length).zip approx)]
    exact List.mem_flatten.mpr ⟨g, hg, hp⟩
  obtain ⟨hval, hlo, hhi⟩ := zip_intRange_mem approx min_dim p hpz
  constructor
  · unfold npIndex
    rw [if_pos (by rw [← hps]; omega)]
  · intro d hd
    obtain ⟨q, hq, hqd⟩ := List.mem_map.mp hd
    have hqz : q ∈ (intRange min_dim approx.length).zip approx := by
      rw [← groupBySnd_flatten ((intRange min_dim approx.length).zip approx)]
      exact List.mem_flatten.mpr ⟨g, hg, hq⟩
    obtain ⟨hqval, hqlo, hqhi⟩ := zip_intRange_mem approx min_dim q hqz
    have hsnd := groupBySnd_snd_const ((intRange min_dim approx.length).zip approx)
      g hg q hq p hp
    rw [← hqd, ← hqval, ← hps, ← hval]
    exact hsnd

theorem dimChunks0_eq (min_dim : ℤ) (approx : List ℤ) :
    dimChunks0 min_dim approx = (theDGS min_dim approx).map (List.map EInt.int) := by
  unfold dimChunks0 theDGS theGroups
  rw [List.map_map]
  refine List.map_congr_left ?_
  intro g hg
  show g.map (fun p => EInt.int p.1) = (g.map Prod.fst).map EInt.int
  rw [List.map_map]
  rfl

theorem theGroups_mem_ne_nil (min_dim : ℤ) (approx : List ℤ) :
    ∀ g ∈ theGroups min_dim approx, g ≠ [] := by
  intro g hg hgnil
  subst hgnil
  exact groupBySnd_not_nil_mem _ hg

theorem theDGS_flatten (min_dim : ℤ) (approx : List ℤ) :
    (theDGS min_dim approx).flatten = intRange min_dim approx.length := by
  unfold theDGS theGroups
  rw [flatten_map_map, groupBySnd_flatten]
  exact List.map_fst_zip _ _ (by rw [intRange_length])

theorem theDGS_runlist (min_dim : ℤ) (approx : List ℤ) (hne : approx ≠ []) :
    RunList min_dim approx.length (theDGS min_dim approx) := by
  refine runs_of_flatten _ min_dim approx.length (List.length_pos.mpr hne) ?_
    (theDGS_flatten min_dim approx)
  intro g hg
  obtain ⟨g0, hg0, hmap⟩ := List.mem_map.mp hg
  intro hgnil
  rw [← hmap] at hgnil
  have hg0nil : g0 = [] := List.map_eq_nil_iff.mp hgnil
  subst hg0nil
  exact groupBySnd_not_nil_mem _ hg0

theorem theDGS_getD (min_dim : ℤ) (approx : List ℤ) (j : ℕ)
    (hj : j < (theGroups min_dim approx).length) :
    (theDGS min_dim approx).getD j [] =
      ((theGroups min_dim approx).getD j []).map Prod.fst := by
  unfold theDGS
  exact getD_map_lt (List.map Prod.fst) (theGroups min_dim approx) j hj [] []

theorem theDGS_length (min_dim : ℤ) (approx : List ℤ) :
    (theDGS min_dim approx).length = (theGroups min_dim approx).length := by
  unfold theDGS
  rw [List.length_map]

theorem dc0_lastLast (min_dim : ℤ) (approx : List ℤ) (hne : approx ≠ []) :
    ((dimChunks0 min_dim approx).getLastD []).getLastD (EInt.int 0) =
      EInt.int (min_dim + approx.length - 1) := by
  have hrl := theDGS_runlist min_dim approx hne
  have hDne : theDGS min_dim approx ≠ [] := RunList_ne_nil _ _ _ hrl
  have hlastne : (theDGS min_dim approx).getLastD [] ≠ [] := by
    obtain ⟨s, r, hr, hrn, hs, hcase⟩ := RunList_snoc _ _ _ hrl
    rcases hcase with ⟨hd, _⟩ | ⟨dgs0, hd, _, _⟩
    · rw [hd]
      exact intRange_ne_nil s r hr
    · rw [hd, getLastD_append_single]
      exact intRange_ne_nil s r hr
  rw [dimChunks0_eq,
    getLastD_map (List.map EInt.int) (theDGS min_dim approx) hDne [] [],
    getLastD_irrel _ (by simpa using hlastne) (EInt.int 0) EInt.inf,
    mapInt_getLastD _ hlastne, RunList_lastLast _ _ _ hrl]

theorem chunkValue_run (approx : List ℤ) (min_dim : ℤ) (sizeLt : Bool) (lastA : ℤ)
    (lastIdx : ℕ) (DC : List (List EInt)) (j : ℕ)
    (hnotspec : ¬ (sizeLt = true ∧ ¬ lastA = -1 ∧ j = lastIdx))
    (g : List (ℤ × ℤ)) (hg : g ∈ theGroups min_dim approx)
    (s : ℤ) (r : ℕ) (hr : 0 < r) (hgfst : g.map Prod.fst = intRange s r)
    (hchunk : (DC.getD j []).headD EInt.inf = EInt.int s) :
    chunkValue approx min_dim sizeLt lastA lastIdx DC j =
      some (approx.getD (s - min_dim).toNat 0) := by
  have hs : s ∈ g.map Prod.fst := by
    rw [hgfst, mem_intRange]
    omega
  have hfact := (group_chunk_facts min_dim approx g hg s hs).1
  unfold chunkValue
  rw [if_neg hnotspec, hchunk]
  exact hfact

theorem chunk_agree (min_dim : ℤ) (approx : List ℤ) (g : List (ℤ × ℤ))
    (hg : g ∈ theGroups min_dim approx)
    (s : ℤ) (r : ℕ) (hr : 0 < r) (hgfst : g.map Prod.fst = intRange s r)
    (d : ℤ) (hd : d ∈ intRange s r) :
    approx.getD (d - min_dim).toNat 0 = approx.getD (s - min_dim).toNat 0 := by
  have hs : s ∈ g.map Prod.fst := by
    rw [hgfst, mem_intRange]
    omega
  refine (group_chunk_facts min_dim approx g hg s hs).2 d ?_
  rw [hgfst]
  exact hd

/-! ### assembling the chunk result -/

theorem getLastD_mem {α : Type} : ∀ (l : List α), l ≠ [] → ∀ d : α,
    l.getLastD d ∈ l := by
  intro l
  induction l with
  | nil => intro h; exact absurd rfl h
  | cons a t ih =>
    intro _ d
    cases t with
    | nil => exact List.mem_cons_self a []
    | cons b t' =>
      rw [List.getLastD_cons]
      exact List.mem_cons_of_mem a (ih (by simp) a)

theorem theDGS_chunk_facts (min_dim : ℤ) (approx : List ℤ) (hne : approx ≠ [])
    (j : ℕ) (hj : j < (theDGS min_dim approx).length) :
    ∃ (s : ℤ) (r : ℕ), 0 < r ∧
      ((theGroups min_dim approx).getD j []).map Prod.fst = intRange s r ∧
      (theDGS min_dim approx).getD j [] = intRange s r ∧
      min_dim ≤ s ∧ s + (r : ℤ) ≤ min_dim + approx.length := by
  obtain ⟨s, r, hget, hr, hs, hb⟩ :=
    RunList_getD _ _ _ (theDGS_runlist min_dim approx hne) j hj
  refine ⟨s, r, hr, ?_, hget, hs, hb⟩
  rw [← theDGS_getD min_dim approx j (by rw [← theDGS_length]; exact hj)]
  exact hget

theorem chunk_result_assemble (min_dim : ℤ) (max_dim : EInt) (approx : List ℤ)
    (sizeLt : Bool) (lastA : ℤ) (DC : List (List EInt)) (hN : 0 < DC.length)
    (E : EInt) (hE : EInt.leb max_dim E = true) (hchain : IvlChain min_dim E DC)
    (hP : ∀ j, j < DC.length →
      ∃ v, chunkValue approx min_dim sizeLt lastA (DC.length - 1) DC j = some v ∧
        ∀ d : ℤ, EInt.int d ∈ DC.getD j [] → min_dim ≤ d →
          d < min_dim + (approx.length : ℤ) →
          v = approx.getD (d - min_dim).toNat 0)
    (hexact : sizeLt = true →
      chunkValue approx min_dim sizeLt lastA (DC.length - 1) DC (DC.length - 1) =
        some (-1)) :
    ∃ ac : List ℤ,
      ((List.range DC.length).mapM
        (chunkValue approx min_dim sizeLt lastA (DC.length - 1) DC)).map
        (fun ac => (DC, ac)) = some (DC, ac) ∧
      ac.length = DC.length ∧
      (∃ E2 : EInt, EInt.leb max_dim E2 = true ∧ IvlChain min_dim E2 DC) ∧
      (∀ d : ℤ, min_dim ≤ d → EInt.leb (EInt.int d) max_dim = true →
        ∃! j : ℕ, j < DC.length ∧ chunkCovers (DC.getD j []) d) ∧
      (∀ j, j < DC.length → ∀ d : ℤ, EInt.int d ∈ DC.getD j [] →
        min_dim ≤ d → d < min_dim + (approx.length : ℤ) →
        ac.getD j 0 = approx.getD (d - min_dim).toNat 0) ∧
      (sizeLt = true → ac.getLastD 0 = -1) := by
  have hsome : ∀ j ∈ List.range DC.length,
      chunkValue approx min_dim sizeLt lastA (DC.length - 1) DC j =
        some ((chunkValue approx min_dim sizeLt lastA (DC.length - 1) DC j).getD 0) := by
    intro j hj
    obtain ⟨v, hv, hagree⟩ := hP j (List.mem_range.mp hj)
    rw [hv]
    rfl
  have hmapM := mapM_ok_of_forall _ _ (List.range DC.length) hsome
  refine ⟨(List.range DC.length).map
      (fun j => (chunkValue approx min_dim sizeLt lastA (DC.length - 1) DC j).getD 0),
    ?_, ?_, ⟨E, hE, hchain⟩, ?_, ?_, ?_⟩
  · rw [hmapM]
    rfl
  · rw [List.length_map, List.length_range]
  · intro d hd1 hd2
    exact IvlChain_cover_unique DC min_dim E hchain d hd1
      (EInt.leb_trans _ _ _ hd2 hE)
  · intro j hj d hmem hd1 hd2
    obtain ⟨v, hv, hagree⟩ := hP j hj
    rw [range_map_getD _ _ j hj 0, hv]
    exact hagree d hmem hd1 hd2
  · intro hsz
    have hac := hexact hsz
    have hml : ((List.range DC.length).map
        (fun j => (chunkValue approx min_dim sizeLt lastA (DC.length - 1) DC j).getD 0))
        ≠ [] := by
      simp only [ne_eq, List.map_eq_nil_iff, List.range_eq_nil]
      omega
    rw [getLastD_eq_getD _ hml 0,
      show ((List.range DC.length).map
          (fun j => (chunkValue approx min_dim sizeLt lastA
            (DC.length - 1) DC j).getD 0)).length - 1 = DC.length - 1
        from by rw [List.length_map, List.length_range],
      range_map_getD _ _ (DC.length - 1) (by omega) 0, hac]
    rfl

/--
C2 (corrected): for a nonempty integer schedule on a dimension range with
`0 ≤ min_dim`, `max_dim` possibly `np.inf`, schedule length fitting the range,
and any trailing `-1` in the schedule spanning at least two dimensions,
`chunk_approx_and_dims` succeeds and returns chunks that tile an interval
`[min_dim, E]` with `max_dim ≤ E` contiguously and in increasing order, so
every dimension of `[min_dim, max_dim]` is covered by exactly one chunk; each
chunk's approximation value agrees with the schedule value of every
in-schedule dimension the chunk lists, and when the schedule is shorter than
the range the final chunk carries the exact-computation marker `-1`.
-/
theorem chunk_approx_and_dims_partitions (min_dim : ℤ) (max_dim : EInt)
    (approx : List ℤ) (hne : approx ≠ []) (hmin : 0 ≤ min_dim)
    (hfits : approxFits approx.length min_dim max_dim = true)
    (hrun : approx.getLast? = some (-1) → ∃ l, approx = l ++ [-1, -1]) :
    ∃ dc ac, chunk_approx_and_dims min_dim max_dim approx = some (dc, ac) ∧
      ac.length = dc.length ∧
      (∃ E : EInt, EInt.leb max_dim E = true ∧ IvlChain min_dim E dc) ∧
      (∀ d : ℤ, min_dim ≤ d → EInt.leb (EInt.int d) max_dim = true →
        ∃! j : ℕ, j < dc.length ∧ chunkCovers (dc.getD j []) d) ∧
      (∀ j, j < dc.length → ∀ d : ℤ, EInt.int d ∈ dc.getD j [] →
        min_dim ≤ d → d < min_dim + (approx.length : ℤ) →
        ac.getD j 0 = approx.getD (d - min_dim).toNat 0) ∧
      (sizeLtRange approx.length min_dim max_dim = true → ac.getLastD 0 = -1) := by
  obtain ⟨lastA, happ⟩ : ∃ a, approx.getLast? = some a := by
    cases approx with
    | nil => exact absurd rfl hne
    | cons a t => exact ⟨(a :: t).getLast (by simp), List.getLast?_eq_getLast _ _⟩
  have hn : 0 < approx.length := List.length_pos.mpr hne
  have hrl := theDGS_runlist min_dim approx hne
  have hdc0 := dimChunks0_eq min_dim approx
  have hDGSne : theDGS min_dim approx ≠ [] := RunList_ne_nil _ _ _ hrl
  have hDL : 0 < (theDGS min_dim approx).length := List.length_pos.mpr hDGSne
  have hlen0 : (dimChunks0 min_dim approx).length = (theDGS min_dim approx).length := by
    rw [hdc0, List.length_map]
  have hll := dc0_lastLast min_dim approx hne
  unfold chunk_approx_and_dims
  rw [happ]
  simp only [Option.some_bind]
  rw [if_pos hfits]
  by_cases hM : lastA = -1
  · -- the schedule ends in -1: the last chunk's upper bound is overwritten
    subst hM
    obtain ⟨l0, hsplit⟩ := hrun happ
    have hcast : min_dim + ((l0.length + 1 : ℕ) : ℤ) = min_dim + (l0.length : ℤ) + 1 := by
      push_cast
      ring
    have h2 : intRange min_dim (l0.length + 2) =
        intRange min_dim l0.length ++
          [min_dim + (l0.length : ℤ), min_dim + (l0.length : ℤ) + 1] := by
      rw [show l0.length + 2 = (l0.length + 1) + 1 from rfl, intRange_concat,
        intRange_concat, List.append_assoc, hcast]
      rfl
    have hzip : (intRange min_dim approx.length).zip approx =
        ((intRange min_dim l0.length).zip l0) ++
          [(min_dim + (l0.length : ℤ), -1), (min_dim + (l0.length : ℤ) + 1, -1)] := by
      conv_lhs => rw [hsplit]
      rw [show (l0 ++ [-1, -1] : List ℤ).length = l0.length + 2 from by simp, h2,
        List.zip_append (by rw [intRange_length])]
      rfl
    obtain ⟨gs', g0, hg2⟩ := groupBySnd_last_two ((intRange min_dim l0.length).zip l0)
      (min_dim + (l0.length : ℤ), -1) (min_dim + (l0.length : ℤ) + 1, -1) rfl
    have hGsplit : theGroups min_dim approx = gs' ++
        [g0 ++ [(min_dim + (l0.length : ℤ), -1), (min_dim + (l0.length : ℤ) + 1, -1)]] := by
      unfold theGroups
      rw [hzip]
      exact hg2
    have hGne : theGroups min_dim approx ≠ [] := by
      rw [hGsplit]
      simp
    have hlastG0 : (theGroups min_dim approx).getLastD [] =
        g0 ++ [(min_dim + (l0.length : ℤ), -1), (min_dim + (l0.length : ℤ) + 1, -1)] := by
      rw [hGsplit, getLastD_append_single]
    have hlen2 : 2 ≤ ((theDGS min_dim approx).getLastD []).length := by
      unfold theDGS
      rw [getLastD_map (List.map Prod.fst) _ hGne [] [], hlastG0]
      simp only [List.length_map, List.length_append, List.length_cons, List.length_nil]
      omega
    obtain ⟨s, r, hr, hrn, hsval, hcase⟩ := RunList_snoc min_dim approx.length
      (theDGS min_dim approx) hrl
    have hlastrun : (theDGS min_dim approx).getLastD [] = intRange s r := by
      rcases hcase with ⟨hd, _⟩ | ⟨dgs0, hd, _, _⟩
      · rw [hd]
        rfl
      · rw [hd, getLastD_append_single]
    have hr2 : 2 ≤ r := by
      rw [hlastrun, intRange_length] at hlen2
      exact hlen2
    have hlastG : ((theGroups min_dim approx).getLastD []).map Prod.fst = intRange s r := by
      have h3 : (theDGS min_dim approx).getLastD [] =
          ((theGroups min_dim approx).getLastD []).map Prod.fst := by
        unfold theDGS
        exact getLastD_map (List.map Prod.fst) _ hGne [] []
      rw [← h3, hlastrun]
    have hGmem : (theGroups min_dim approx).getLastD [] ∈ theGroups min_dim approx :=
      getLastD_mem _ hGne []
    have hlastval : approx.getD (s - min_dim).toNat 0 = -1 := by
      have hsmem : s ∈ ((theGroups min_dim approx).getLastD []).map Prod.fst := by
        rw [hlastG, mem_intRange]
        omega
      obtain ⟨ps, hpsG, hps⟩ := List.mem_map.mp hsmem
      have hpmem : ((min_dim + (l0.length : ℤ), -1) : ℤ × ℤ) ∈
          (theGroups min_dim approx).getLastD [] := by
        rw [hlastG0]
        exact List.mem_append_right _ (List.mem_cons_self _ _)
      have hsnd := groupBySnd_snd_const ((intRange min_dim approx.length).zip approx)
        ((theGroups min_dim approx).getLastD []) hGmem ps hpsG _ hpmem
      have hpz : ps ∈ (intRange min_dim approx.length).zip approx := by
        rw [← groupBySnd_flatten ((intRange min_dim approx.length).zip approx)]
        exact List.mem_flatten.mpr ⟨_, hGmem, hpsG⟩
      obtain ⟨hval, hb1, hb2⟩ := zip_intRange_mem approx min_dim ps hpz
      rw [← hps, ← hval]
      exact hsnd
    have hDCeq : dimChunksFinal max_dim (-1) (dimChunks0 min_dim approx) =
        setLast (dimChunks0 min_dim approx)
          (setLast ((dimChunks0 min_dim approx).getLastD []) (EInt.int (-1))) := by
      unfold dimChunksFinal
      rw [if_pos rfl]
    have hchain : IvlChain min_dim EInt.inf
        (dimChunksFinal max_dim (-1) (dimChunks0 min_dim approx)) := by
      rw [hDCeq, hdc0]
      exact chainC min_dim approx.length (theDGS min_dim approx) hrl hmin hlen2
    have hmutlast : (dimChunks0 min_dim approx).getLastD [] =
        (intRange s r).map EInt.int := by
      rw [hdc0, getLastD_map (List.map EInt.int) _ hDGSne [] [], hlastrun]
    obtain ⟨A, hDCform, hAlen, hAget⟩ :
        ∃ A, dimChunksFinal max_dim (-1) (dimChunks0 min_dim approx) =
          A ++ [setLast ((intRange s r).map EInt.int) (EInt.int (-1))] ∧
          A.length = (theDGS min_dim approx).length - 1 ∧
          ∀ j, j < A.length → A.getD j [] =
            ((theDGS min_dim approx).getD j []).map EInt.int := by
      rcases hcase with ⟨hd, hreq⟩ | ⟨dgs0, hd, hrl0, hrlt⟩
      · refine ⟨[], ?_, ?_, ?_⟩
        · rw [hDCeq, hmutlast, hdc0, hd]
          rfl
        · rw [hd]
          rfl
        · intro j hj
          simp at hj
      · refine ⟨dgs0.map (List.map EInt.int), ?_, ?_, ?_⟩
        · rw [hDCeq, hmutlast, hdc0, hd, List.map_append,
            show ([intRange s r] : List (List ℤ)).map (List.map EInt.int) =
              [(intRange s r).map EInt.int] from rfl]
          exact setLast_append_single _ _ _
        · rw [List.length_map, hd, List.length_append]
          simp
        · intro j hj
          rw [List.length_map] at hj
          rw [getD_map_lt (List.map EInt.int) dgs0 j hj [] [], hd,
            getD_append_left _ _ j hj]
    have hNlen : (dimChunksFinal max_dim (-1) (dimChunks0 min_dim approx)).length =
        A.length + 1 := by
      rw [hDCform, List.length_append]
      rfl
    have hNpos : 0 < (dimChunksFinal max_dim (-1) (dimChunks0 min_dim approx)).length := by
      rw [hNlen]
      omega
    have hlastIdx : (dimChunksFinal max_dim (-1) (dimChunks0 min_dim approx)).length - 1 =
        A.length := by
      rw [hNlen]
      omega
    have hmutchunk : (dimChunksFinal max_dim (-1) (dimChunks0 min_dim approx)).getD
        A.length [] = setLast ((intRange s r).map EInt.int) (EInt.int (-1)) := by
      rw [hDCform, getD_append_right _ _ A.length (le_refl _) [], Nat.sub_self]
      rfl
    have hheadlast : ((dimChunksFinal max_dim (-1)
        (dimChunks0 min_dim approx)).getD A.length []).headD EInt.inf = EInt.int s := by
      rw [hmutchunk, mutated_chunk_eq s r hr2,
        headD_append_left _ _ (by simpa using intRange_ne_nil s (r - 1) (by omega)) _,
        mapInt_headD _ (intRange_ne_nil s (r - 1) (by omega)),
        intRange_headD s (r - 1) (by omega)]
    have hvallast : chunkValue approx min_dim
        (sizeLtRange approx.length min_dim max_dim) (-1)
        ((dimChunksFinal max_dim (-1) (dimChunks0 min_dim approx)).length - 1)
        (dimChunksFinal max_dim (-1) (dimChunks0 min_dim approx)) A.length =
        some (-1) := by
      have hv0 : chunkValue approx min_dim
          (sizeLtRange approx.length min_dim max_dim) (-1)
          ((dimChunksFinal max_dim (-1) (dimChunks0 min_dim approx)).length - 1)
          (dimChunksFinal max_dim (-1) (dimChunks0 min_dim approx)) A.length =
          some (approx.getD (s - min_dim).toNat 0) := by
        refine chunkValue_run approx min_dim _ (-1) _ _ A.length ?_
          ((theGroups min_dim approx).getLastD []) hGmem s r (by omega) hlastG hheadlast
        rintro ⟨hc1, hc2, hc3⟩
        exact hc2 rfl
      rw [hlastval] at hv0
      exact hv0
    have hP : ∀ j, j < (dimChunksFinal max_dim (-1) (dimChunks0 min_dim approx)).length →
        ∃ v, chunkValue approx min_dim (sizeLtRange approx.length min_dim max_dim) (-1)
            ((dimChunksFinal max_dim (-1) (dimChunks0 min_dim approx)).length - 1)
            (dimChunksFinal max_dim (-1) (dimChunks0 min_dim approx)) j = some v ∧
          ∀ d : ℤ, EInt.int d ∈
              (dimChunksFinal max_dim (-1) (dimChunks0 min_dim approx)).getD j [] →
            min_dim ≤ d → d < min_dim + (approx.length : ℤ) →
            v = approx.getD (d - min_dim).toNat 0 := by
      intro j hj
      rw [hNlen] at hj
      by_cases hjl : j < A.length
      · have hjD : j < (theDGS min_dim approx).length := by omega
        obtain ⟨s', r', hr', hgfst, hdget, hs', hb'⟩ :=
          theDGS_chunk_facts min_dim approx hne j hjD
        have hchunkj : (dimChunksFinal max_dim (-1)
            (dimChunks0 min_dim approx)).getD j [] = (intRange s' r').map EInt.int := by
          rw [hDCform, getD_append_left _ _ j hjl, hAget j hjl, hdget]
        refine ⟨approx.getD (s' - min_dim).toNat 0, ?_, ?_⟩
        · refine chunkValue_run approx min_dim _ (-1) _ _ j ?_
            ((theGroups min_dim approx).getD j []) ?_ s' r' hr' hgfst ?_
          · rintro ⟨hc1, hc2, hc3⟩
            exact hc2 rfl
          · exact getD_mem_of_lt _ j (by rw [← theDGS_length]; exact hjD) []
          · rw [hchunkj, mapInt_headD _ (intRange_ne_nil s' r' hr'),
              intRange_headD s' r' hr']
        · intro d hmem hd1 hd2
          rw [hchunkj] at hmem
          obtain ⟨d0, hd0, hd0eq⟩ := List.mem_map.mp hmem
          have hdd : d0 = d := EInt.int.inj hd0eq
          subst hdd
          exact (chunk_agree min_dim approx _
            (getD_mem_of_lt _ j (by rw [← theDGS_length]; exact hjD) [])
            s' r' hr' hgfst d0 hd0).symm
      · have hjeq : j = A.length := by omega
        subst hjeq
        refine ⟨-1, hvallast, ?_⟩
        intro d hmem hd1 hd2
        rw [hmutchunk, mutated_chunk_eq s r hr2] at hmem
        rcases List.mem_append.mp hmem with hmem1 | hmem2
        · obtain ⟨d0, hd0, hd0eq⟩ := List.mem_map.mp hmem1
          have hdd : d0 = d := EInt.int.inj hd0eq
          subst hdd
          rw [mem_intRange] at hd0
          have hd0' : d0 ∈ intRange s r := by
            rw [mem_intRange]
            omega
          rw [← hlastval]
          exact (chunk_agree min_dim approx _ hGmem s r (by omega) hlastG d0 hd0').symm
        · rw [List.mem_singleton] at hmem2
          have hdneg := EInt.int.inj hmem2
          omega
    have hexact : sizeLtRange approx.length min_dim max_dim = true →
        chunkValue approx min_dim (sizeLtRange approx.length min_dim max_dim) (-1)
          ((dimChunksFinal max_dim (-1) (dimChunks0 min_dim approx)).length - 1)
          (dimChunksFinal max_dim (-1) (dimChunks0 min_dim approx))
          ((dimChunksFinal max_dim (-1) (dimChunks0 min_dim approx)).length - 1) =
          some (-1) := by
      intro hsz
      have h := hvallast
      rwa [← hlastIdx] at h
    obtain ⟨ac, h1, h2, h3, h4, h5, h6⟩ := chunk_result_assemble min_dim max_dim approx
      (sizeLtRange approx.length min_dim max_dim) (-1)
      (dimChunksFinal max_dim (-1) (dimChunks0 min_dim approx)) hNpos
      EInt.inf (EInt.leb_inf max_dim) hchain hP hexact
    exact ⟨_, ac, h1, h2, h3, h4, h5, h6⟩
  · by_cases hltb : EInt.ltb (EInt.int (min_dim + (approx.length : ℤ) - 1)) max_dim = true
    · -- the schedule ends below max_dim: a final [last+1, max_dim] chunk is appended
      have hsz : sizeLtRange approx.length min_dim max_dim = true := by
        rw [sizeLtRange_iff_ltb]
        exact hltb
      have hadd : EInt.add1 (EInt.int (min_dim + (approx.length : ℤ) - 1)) =
          EInt.int (min_dim + (approx.length : ℤ)) := by
        show EInt.int (min_dim + (approx.length : ℤ) - 1 + 1) = _
        congr 1
        ring
      have hDCeq : dimChunksFinal max_dim lastA (dimChunks0 min_dim approx) =
          dimChunks0 min_dim approx ++
            [[EInt.int (min_dim + (approx.length : ℤ)), max_dim]] := by
        unfold dimChunksFinal
        rw [if_neg hM, hll, if_pos hltb, hadd]
      have hchain : IvlChain min_dim max_dim
          (dimChunksFinal max_dim lastA (dimChunks0 min_dim approx)) := by
        rw [hDCeq, hdc0]
        exact chainB min_dim approx.length (theDGS min_dim approx) max_dim hrl hmin hltb
      have hNpos : 0 < (dimChunksFinal max_dim lastA (dimChunks0 min_dim approx)).length := by
        rw [hDCeq, List.length_append]
        omega
      have hlastIdx : (dimChunksFinal max_dim lastA (dimChunks0 min_dim approx)).length - 1 =
          (dimChunks0 min_dim approx).length := by
        rw [hDCeq, List.length_append, List.length_cons, List.length_nil]
        omega
      have hP : ∀ j, j < (dimChunksFinal max_dim lastA (dimChunks0 min_dim approx)).length →
          ∃ v, chunkValue approx min_dim (sizeLtRange approx.length min_dim max_dim) lastA
              ((dimChunksFinal max_dim lastA (dimChunks0 min_dim approx)).length - 1)
              (dimChunksFinal max_dim lastA (dimChunks0 min_dim approx)) j = some v ∧
            ∀ d : ℤ, EInt.int d ∈
                (dimChunksFinal max_dim lastA (dimChunks0 min_dim approx)).getD j [] →
              min_dim ≤ d → d < min_dim + (approx.length : ℤ) →
              v = approx.getD (d - min_dim).toNat 0 := by
        intro j hj
        rw [hDCeq, List.length_append, List.length_cons, List.length_nil] at hj
        by_cases hjl : j < (dimChunks0 min_dim approx).length
        · have hjD : j < (theDGS min_dim approx).length := by
            rw [← hlen0]
            exact hjl
          obtain ⟨s', r', hr', hgfst, hdget, hs', hb'⟩ :=
            theDGS_chunk_facts min_dim approx hne j hjD
          have hchunkj : (dimChunksFinal max_dim lastA
              (dimChunks0 min_dim approx)).getD j [] = (intRange s' r').map EInt.int := by
            rw [hDCeq, getD_append_left _ _ j hjl, hdc0,
              getD_map_lt (List.map EInt.int) _ j hjD [] [], hdget]
          refine ⟨approx.getD (s' - min_dim).toNat 0, ?_, ?_⟩
          · refine chunkValue_run approx min_dim _ lastA _ _ j ?_
              ((theGroups min_dim approx).getD j []) ?_ s' r' hr' hgfst ?_
            · rintro ⟨hc1, hc2, hc3⟩
              rw [hlastIdx] at hc3
              omega
            · exact getD_mem_of_lt _ j (by rw [← theDGS_length]; exact hjD) []
            · rw [hchunkj, mapInt_headD _ (intRange_ne_nil s' r' hr'),
                intRange_headD s' r' hr']
          · intro d hmem hd1 hd2
            rw [hchunkj] at hmem
            obtain ⟨d0, hd0, hd0eq⟩ := List.mem_map.mp hmem
            have hdd : d0 = d := EInt.int.inj hd0eq
            subst hdd
            exact (chunk_agree min_dim approx _
              (getD_mem_of_lt _ j (by rw [← theDGS_length]; exact hjD) [])
              s' r' hr' hgfst d0 hd0).symm
        · have hjeq : j = (dimChunks0 min_dim approx).length := by omega
          refine ⟨-1, ?_, ?_⟩
          · unfold chunkValue
            rw [if_pos ⟨hsz, hM, by rw [hlastIdx]; exact hjeq⟩]
          · intro d hmem hd1 hd2
            exfalso
            have hchunkj : (dimChunksFinal max_dim lastA
                (dimChunks0 min_dim approx)).getD j [] =
                [EInt.int (min_dim + (approx.length : ℤ)), max_dim] := by
              rw [hDCeq, getD_append_right _ _ j (by omega) [],
                show j - (dimChunks0 min_dim approx).length = 0 from by omega]
              rfl
            rw [hchunkj] at hmem
            rcases List.mem_cons.mp hmem with heq | hmem2
            · have hdv := EInt.int.inj heq
              omega
            · rw [List.mem_singleton] at hmem2
              rw [← hmem2, EInt.ltb_int_int] at hltb
              omega
      have hexact : sizeLtRange approx.length min_dim max_dim = true →
          chunkValue approx min_dim (sizeLtRange approx.length min_dim max_dim) lastA
            ((dimChunksFinal max_dim lastA (dimChunks0 min_dim approx)).length - 1)
            (dimChunksFinal max_dim lastA (dimChunks0 min_dim approx))
            ((dimChunksFinal max_dim lastA (dimChunks0 min_dim approx)).length - 1) =
            some (-1) := by
        intro hsz2
        unfold chunkValue
        rw [if_pos ⟨hsz, hM, rfl⟩]
      obtain ⟨ac, h1, h2, h3, h4, h5, h6⟩ := chunk_result_assemble min_dim max_dim approx
        (sizeLtRange approx.length min_dim max_dim) lastA
        (dimChunksFinal max_dim lastA (dimChunks0 min_dim approx)) hNpos
        max_dim (EInt.leb_refl max_dim) hchain hP hexact
      exact ⟨_, ac, h1, h2, h3, h4, h5, h6⟩
    · -- the schedule already reaches max_dim: no surgery
      have hDCeq : dimChunksFinal max_dim lastA (dimChunks0 min_dim approx) =
          dimChunks0 min_dim approx := by
        unfold dimChunksFinal
        rw [if_neg hM, hll, if_neg hltb]
      have hszf : sizeLtRange approx.length min_dim max_dim = false := by
        rw [sizeLtRange_iff_ltb]
        exact Bool.eq_false_iff.mpr hltb
      have hE : EInt.leb max_dim (EInt.int (min_dim + (approx.length : ℤ) - 1)) = true := by
        cases max_dim with
        | inf => exact absurd (EInt.ltb_int_inf _) hltb
        | int M =>
          rw [EInt.leb_int_int]
          by_contra hc
          exact hltb ((EInt.ltb_int_int _ _).mpr (by omega))
      have hchain : IvlChain min_dim (EInt.int (min_dim + (approx.length : ℤ) - 1))
          (dimChunksFinal max_dim lastA (dimChunks0 min_dim approx)) := by
        rw [hDCeq, hdc0]
        exact chainA min_dim approx.length (theDGS min_dim approx) hrl hmin
      have hNpos : 0 < (dimChunksFinal max_dim lastA (dimChunks0 min_dim approx)).length := by
        rw [hDCeq, hlen0]
        exact hDL
      have hP : ∀ j, j < (dimChunksFinal max_dim lastA (dimChunks0 min_dim approx)).length →
          ∃ v, chunkValue approx min_dim (sizeLtRange approx.length min_dim max_dim) lastA
              ((dimChunksFinal max_dim lastA (dimChunks0 min_dim approx)).length - 1)
              (dimChunksFinal max_dim lastA (dimChunks0 min_dim approx)) j = some v ∧
            ∀ d : ℤ, EInt.int d ∈
                (dimChunksFinal max_dim lastA (dimChunks0 min_dim approx)).getD j [] →
              min_dim ≤ d → d < min_dim + (approx.length : ℤ) →
              v = approx.getD (d - min_dim).toNat 0 := by
        intro j hj
        rw [hDCeq, hlen0] at hj
        obtain ⟨s', r', hr', hgfst, hdget, hs', hb'⟩ :=
          theDGS_chunk_facts min_dim approx hne j hj
        have hchunkj : (dimChunksFinal max_dim lastA
            (dimChunks0 min_dim approx)).getD j [] = (intRange s' r').map EInt.int := by
          rw [hDCeq, hdc0, getD_map_lt (List.map EInt.int) _ j hj [] [], hdget]
        refine ⟨approx.getD (s' - min_dim).toNat 0, ?_, ?_⟩
        · refine chunkValue_run approx min_dim _ lastA _ _ j ?_
            ((theGroups min_dim approx).getD j []) ?_ s' r' hr' hgfst ?_
          · rintro ⟨hc1, hc2, hc3⟩
            rw [hszf] at hc1
            simp at hc1
          · exact getD_mem_of_lt _ j (by rw [← theDGS_length]; exact hj) []
          · rw [hchunkj, mapInt_headD _ (intRange_ne_nil s' r' hr'),
              intRange_headD s' r' hr']
        · intro d hmem hd1 hd2
          rw [hchunkj] at hmem
          obtain ⟨d0, hd0, hd0eq⟩ := List.mem_map.mp hmem
          have hdd : d0 = d := EInt.int.inj hd0eq
          subst hdd
          exact (chunk_agree min_dim approx _
            (getD_mem_of_lt _ j (by rw [← theDGS_length]; exact hj) [])
            s' r' hr' hgfst d0 hd0).symm
      have hexact : sizeLtRange approx.length min_dim max_dim = true →
          chunkValue approx min_dim (sizeLtRange approx.length min_dim max_dim) lastA
            ((dimChunksFinal max_dim lastA (dimChunks0 min_dim approx)).length - 1)
            (dimChunksFinal max_dim lastA (dimChunks0 min_dim approx))
            ((dimChunksFinal max_dim lastA (dimChunks0 min_dim approx)).length - 1) =
            some (-1) := by
        intro hsz2
        rw [hszf] at hsz2
        simp at hsz2
      obtain ⟨ac, h1, h2, h3, h4, h5, h6⟩ := chunk_result_assemble min_dim max_dim approx
        (sizeLtRange approx.length min_dim max_dim) lastA
        (dimChunksFinal max_dim lastA (dimChunks0 min_dim approx)) hNpos
        (EInt.int (min_dim + (approx.length : ℤ) - 1)) hE hchain hP hexact
      exact ⟨_, ac, h1, h2, h3, h4, h5, h6⟩

/-- Witness: the amended C2 theorem instantiated at `min_dim = 0`,
`max_dim = 3`, schedule `[5, 5, 7, 7]`, with every hypothesis discharged. -/
theorem chunk_approx_and_dims_partitions_witness :
    ∃ dc ac, chunk_approx_and_dims 0 (EInt.int 3) [5, 5, 7, 7] = some (dc, ac) ∧
      ac.length = dc.length ∧
      (∃ E : EInt, EInt.leb (EInt.int 3) E = true ∧ IvlChain 0 E dc) ∧
      (∀ d : ℤ, 0 ≤ d → EInt.leb (EInt.int d) (EInt.int 3) = true →
        ∃! j : ℕ, j < dc.length ∧ chunkCovers (dc.getD j []) d) ∧
      (∀ j, j < dc.length → ∀ d : ℤ, EInt.int d ∈ dc.getD j [] →
        0 ≤ d → d < 0 + (([5, 5, 7, 7] : List ℤ).length : ℤ) →
        ac.getD j 0 = ([5, 5, 7, 7] : List ℤ).getD (d - 0).toNat 0) ∧
      (sizeLtRange ([5, 5, 7, 7] : List ℤ).length 0 (EInt.int 3) = true →
        ac.getLastD 0 = -1) :=
  chunk_approx_and_dims_partitions 0 (EInt.int 3) [5, 5, 7, 7] (by decide) (by decide)
    (by decide) (fun h => absurd h (by decide))

/--
C2 counterexample to the unamended claim: (a) with `min_dim = 0`,
`max_dim = np.inf` and schedule `[2, -1]` — length `2 ≤ max - min + 1`, so the
claim's side condition holds — the trailing `-1` run is a single dimension;
the surgery overwrites that dimension with the sentinel `-1`, which consumers
reinterpret as `np.inf`, so the second chunk reaches back over dimension `0`
and dimension `0` is covered by BOTH chunks; (b) with a negative
`min_dim = -3`, `max_dim = 0` and schedule `[1, 1, 1, 2]`, the first chunk
genuinely ends at dimension `-1`, which consumers again reinterpret as
`np.inf`, so dimension `0` is covered by both chunks; (c) the empty schedule
raises (`approximation[-1]` is an `IndexError`) instead of returning chunks.
-/
theorem chunk_approx_and_dims_cex :
    chunk_approx_and_dims 0 EInt.inf [2, -1] =
      some ([[EInt.int 0], [EInt.int (-1)]], [2, -1]) ∧
    chunkCovers [EInt.int 0] 0 ∧ chunkCovers [EInt.int (-1)] 0 ∧
    chunk_approx_and_dims (-3) (EInt.int 0) [1, 1, 1, 2] =
      some ([[EInt.int (-3), EInt.int (-2), EInt.int (-1)], [EInt.int 0]], [1, 2]) ∧
    chunkCovers [EInt.int (-3), EInt.int (-2), EInt.int (-1)] 0 ∧
    chunk_approx_and_dims 0 EInt.inf [] = none :=
  ⟨by decide, ⟨by decide, by decide⟩, ⟨by decide, by decide⟩, by decide,
    ⟨by decide, by decide⟩, by decide⟩
